import Mathlib

/-!
# Verification of the Browserbot task-orchestration core

This development embeds the task orchestration and progress-tracking
subsystem of `src/services/browserbot/main.py` as a small-step transition
system and proves (or refutes) the specification claims about it.

The Python module keeps its per-task state in module-level dictionaries
(`_task_progress`, `_task_data`, `_task_cancelled`, `_running_agents`)
guarded only by the single-threaded asyncio event loop, and serializes all
automation work behind one `asyncio.Lock` (`_automation_lock`).  Every
request handler in the file contains no `await` between its state accesses,
so each handler runs atomically with respect to the event loop.  The
background job `_run_trend_finder_background` suspends exactly twice: while
awaiting the lock (`async with _automation_lock`) and while awaiting
`agent.run()`.  The embedding therefore models the system as atomic steps:

* `submit`    — the `find_trends` branch of `POST /run` (allocates a fresh
                uuid task id and schedules the background job);
* `initFlag`  — the background job's first atomic block
                (`_task_cancelled[task_id] = False`) up to the lock wait;
* `acquire`   — the lock grant (guard: the lock is free);
* `checkYes`/`checkNo` — the atomic block from holding the lock through the
                cancellation check, and — in the `checkNo` case — through
                `_run_trend_finder`'s initialisation up to `await agent.run()`;
* `agentDone` — everything after `agent.run()` yields (streaming the action
                trace, storing the result, releasing the lock, the
                `except`/`finally` clauses);
* `stopOk`    — `POST /stop/{task_id}` on a task whose progress entry exists;
* `stopAll`   — `POST /stop-all`.

Queries (`GET /progress`, `GET /result`, and the 404 branch of `/stop`) are
pure functions of the state.  The agent call itself is opaque: each runner
carries the outcome (`ok`/`err`) that `await agent.run()` will produce.
-/

namespace Browserbot

/-! ## Data model -/

/-- One trend record, mirroring the `TrendInsight` pydantic model. -/
structure Trend where
  trend_name : String
  description : String
  source : String
  engagement_level : String
  target_audience : String
  product_opportunities : List String
deriving DecidableEq, Repr

/-- The agent's structured output, mirroring `TrendFinderResult`. -/
structure TFResult where
  trends : List Trend
  recommendedSearches : List String
  summary : Option String
deriving DecidableEq, Repr

/-- What `await agent.run()` returned: a possibly-absent structured output
(`result.structured_output` may be `None`) plus the action-trace attribute
values probed in order (`actions`, `all_actions`, `history`, `events`) with
each entry already rendered to text the way the code does
(`entry.message or entry.text or str(entry)`). -/
structure AgentResult where
  structured : Option TFResult
  traces : List (List String)
deriving DecidableEq, Repr

/-- The opaque agent call either returns a result or raises with a message. -/
inductive AgentOutcome where
  | ok (res : AgentResult)
  | err (msg : String)
deriving DecidableEq, Repr

/-- The payload dict built at the end of `_run_trend_finder` and stored under
the `f"{task_id}_result"` key. -/
structure Payload where
  status : String
  trends : List Trend
  recommendedSearches : List String
  summary : Option String
  actions : List String
deriving DecidableEq, Repr

/-- A value stored in `_task_progress`: almost always a text line, but the
`f"{task_id}_result"` key holds the payload dict (the Python lists are
heterogeneous). -/
inductive Entry where
  | line (s : String)
  | payload (p : Payload)
deriving DecidableEq, Repr

/-- The per-task dict stored in `_task_data`. -/
structure TData where
  trends : List Trend
  recommendedSearches : List String
  actions : List String
  pagesVisited : List String
deriving DecidableEq, Repr

/-- Value of `_task_data[task_id]` as initialised at the top of `_run_trend_finder`. -/
def emptyTData : TData := ⟨[], [], [], []⟩

/-- Control position of one background job instance.  `notStarted`: scheduled
but its coroutine has not run yet; `acquiring`: past the flag initialisation,
waiting on `_automation_lock`; `checking`: lock granted, about to run the
atomic block containing the cancellation check; `running`: inside
`await agent.run()`; `done`: the coroutine finished. -/
inductive Phase where
  | notStarted | acquiring | checking | running | done
deriving DecidableEq, Repr

/-- Which exit path a finished background job took: `preCancelled` — the
cancelled-before-start `return`; `stored` — normal completion with the result
stored; `withheld` — normal completion with the result withheld because the
cancellation flag was observed; `failed` — the `except Exception` path. -/
inductive Term where
  | preCancelled | stored | withheld | failed
deriving DecidableEq, Repr

/-- Model bookkeeping for one scheduled background job. -/
structure Runner where
  phase : Phase
  outcome : AgentOutcome
  term : Option Term
deriving DecidableEq, Repr

/-- A Python dict keyed by strings. -/
def Map (V : Type) : Type := String → Option V

/-- Dict update `m[k] = v`. -/
def mset {V : Type} (m : Map V) (k : String) (v : V) : Map V :=
  fun x => if x = k then some v else m x

/-- Dict removal `del m[k]` (no-op when absent, matching the guarded `del`s in the code). -/
def mdel {V : Type} (m : Map V) (k : String) : Map V :=
  fun x => if x = k then none else m x

/-- Append entries to `m[k]` when the key is present (the code's
`_task_progress[task_id].append(...)` calls are only reached, or are
explicitly guarded by `task_id in _task_progress`, when the key exists). -/
def aip (m : Map (List Entry)) (k : String) (xs : List Entry) : Map (List Entry) :=
  match m k with
  | some l => mset m k (l ++ xs)
  | none => m

/-- The full module-level state of the service. -/
structure Sys where
  progress : Map (List Entry)   -- `_task_progress`
  data : Map TData              -- `_task_data`
  cancelled : Map Bool          -- `_task_cancelled`
  agents : List String          -- keys of `_running_agents`, insertion order
  runners : Map Runner          -- scheduled background jobs (bookkeeping)
  lock : Option String          -- `_automation_lock` holder, `none` = free

/-- State at process start: empty dicts, free lock. -/
def initSys : Sys :=
  { progress := fun _ => none, data := fun _ => none, cancelled := fun _ => none,
    agents := [], runners := fun _ => none, lock := none }

/-- Read `_task_cancelled.get(task_id, False)`. -/
def cGet (s : Sys) (t : String) : Bool := (s.cancelled t).getD false

/-- The `f"{task_id}_result"` key used by the result store and `GET /result`. -/
def resultKey (t : String) : String := t ++ "_result"

/-- Issued task ids are `uuid4` strings: hex digits and dashes, never an
underscore.  This is the code's (implicit) guarantee that an issued id can
never collide with an `_result` key. -/
def noUnd (t : String) : Prop := '_' ∉ t.data

/-! ## Progress-line constants (the literals of `main.py`) -/

def initLine : String := "🔄 Initializing browser automation..."
def connectedLine : String := "🌐 Connected to Chrome browser (check separate Chrome window)"
def agentStartLine : String := "🤖 AI agent started - watch the Chrome window for activity!"
def searchLine : String := "🔍 Searching Google for recent product trends and blog posts..."
def cancelLine : String := "✓ Cancelled before start"
def stoppingLine : String := "🛑 Stopping automation..."
def stoppedLine : String := "✓ Automation stopped"
def doneLine : String := "✓ Research complete"

def visitLine (a : String) : String := "🌐 Visited: " ++ a.take 100
def narrLine (a : String) : String := "💭 " ++ a
def errLine (m : String) : String := "❌ Error: " ++ m
def trendLine (i : Nat) (tr : Trend) : String :=
  "✨ Trend #" ++ toString i ++ ": " ++ tr.trend_name ++ " (" ++ tr.engagement_level ++ " engagement)"
def genLine (n : Nat) : String := "🎯 Generated " ++ toString n ++ " Amazon search queries"
def doneFoundLine (n : Nat) : String :=
  "✓ Research complete! Found " ++ toString n ++ " product opportunities"

/-! ## The trace-translation policy of `_run_trend_finder` -/

/-- Python's substring test `needle in hay`, on code-point lists. -/
def hasSub (needle : List Char) : List Char → Bool
  | [] => needle.isEmpty
  | c :: rest => needle.isPrefixOf (c :: rest) || hasSub needle rest

/-- Python `text.lower()`, as a code-point list. -/
def lowerChars (a : String) : List Char := a.data.map Char.toLower

/-- Test `"http" in text.lower() or "www." in text.lower()`. -/
def urlLike (a : String) : Bool :=
  hasSub "http".data (lowerChars a) || hasSub "www.".data (lowerChars a)

/-- The progress-log lines one trace entry contributes: a tagged page-visit
line (truncated to 100 characters) for URL-like entries, the entry verbatim
as narration when shorter than 150 characters, nothing otherwise. -/
def actionLines (a : String) : List Entry :=
  if urlLike a then [Entry.line (visitLine a)]
  else if a.length < 150 then [Entry.line (narrLine a)]
  else []

/-- The streaming loop over the collected action texts: first component the
progress-log additions, second the additions to `pages_visited`. -/
def streamActions : List String → List Entry × List String
  | [] => ([], [])
  | a :: rest =>
      let p := streamActions rest
      (actionLines a ++ p.1, (if urlLike a then [a] else []) ++ p.2)

/-- The `structured.trends if structured else []` access. -/
def tfTrends (res : AgentResult) : List Trend :=
  match res.structured with
  | some st => st.trends
  | none => []

def tfRecs (res : AgentResult) : List String :=
  match res.structured with
  | some st => st.recommendedSearches
  | none => []

def tfSummary (res : AgentResult) : Option String :=
  match res.structured with
  | some st => st.summary
  | none => none

/-! ## Step effects -/

/-- The `find_trends` branch of `POST /run`: allocate a fresh id and schedule
the background job (the scheduling itself mutates no dict). -/
def submitE (s : Sys) (t : String) (o : AgentOutcome) : Sys :=
  { s with runners := mset s.runners t ⟨Phase.notStarted, o, none⟩ }

/-- The background job may start only with an id no dict knows about yet. -/
def freshFor (s : Sys) (t : String) : Prop :=
  s.progress t = none ∧ s.data t = none ∧ s.cancelled t = none ∧
    t ∉ s.agents ∧ s.runners t = none

/-- First atomic block of `_run_trend_finder_background`:
`_task_cancelled[task_id] = False`, then wait on the lock. -/
def initFlagE (s : Sys) (t : String) (r : Runner) : Sys :=
  { s with cancelled := mset s.cancelled t false,
           runners := mset s.runners t { r with phase := Phase.acquiring } }

/-- The lock grant. -/
def acquireE (s : Sys) (t : String) (r : Runner) : Sys :=
  { s with lock := some t,
           runners := mset s.runners t { r with phase := Phase.checking } }

/-- Cancellation flag observed true inside the lock: append the
`"✓ Cancelled before start"` line if the progress entry exists, `return`
(releasing the lock), and run the `finally` clean-up. -/
def checkYesE (s : Sys) (t : String) (r : Runner) : Sys :=
  { s with progress := aip s.progress t [Entry.line cancelLine],
           lock := none,
           agents := s.agents.erase t,
           cancelled := mdel s.cancelled t,
           runners := mset s.runners t
             { r with phase := Phase.done, term := some Term.preCancelled } }

/-- Cancellation flag observed false: `_run_trend_finder` initialises the
progress list and the data dict, appends its three connection/start lines,
registers the agent in `_running_agents`, and suspends in `await agent.run()`. -/
def checkNoE (s : Sys) (t : String) (r : Runner) : Sys :=
  { s with progress := mset s.progress t
             [Entry.line initLine, Entry.line connectedLine,
              Entry.line agentStartLine, Entry.line searchLine],
           data := mset s.data t emptyTData,
           agents := s.agents ++ [t],
           runners := mset s.runners t { r with phase := Phase.running } }

/-- The collected action texts of a run (the `actions` list in
`_run_trend_finder`): concatenate the probed trace attributes in order,
skipping falsy (empty) texts (`if text:`). -/
def collActs (res : AgentResult) : List String :=
  (res.traces.flatten).filter (fun a => a != "")

/-- The `"✨ Trend #i: ..."` lines streamed from the structured output. -/
def trendEntries (res : AgentResult) : List Entry :=
  (tfTrends res).enum.map (fun p => Entry.line (trendLine (p.1 + 1) p.2))

/-- The `"🎯 Generated ..."` line (only when recommended searches exist). -/
def recEntries (res : AgentResult) : List Entry :=
  if (tfRecs res).isEmpty then [] else [Entry.line (genLine (tfRecs res).length)]

/-- The final `"✓ Research complete..."` line (always appended). -/
def finalEntry (res : AgentResult) : Entry :=
  Entry.line (if (tfTrends res).isEmpty then doneLine else doneFoundLine (tfTrends res).length)

/-- Everything the normal-return path appends to the task's progress list. -/
def runAppend (res : AgentResult) : List Entry :=
  (streamActions (collActs res)).1 ++ trendEntries res ++ recEntries res ++ [finalEntry res]

/-- The payload dict built by `_run_trend_finder`. -/
def mkPayload (res : AgentResult) : Payload :=
  { status := if (tfTrends res).isEmpty then "no_trends" else "completed",
    trends := tfTrends res, recommendedSearches := tfRecs res,
    summary := tfSummary res, actions := collActs res }

/-- The update of `_task_data[task_id]` performed by the normal-return path. -/
def updData (d : TData) (res : AgentResult) : TData :=
  { trends := d.trends ++ tfTrends res,
    recommendedSearches := if (tfRecs res).isEmpty then d.recommendedSearches else tfRecs res,
    actions := d.actions ++ collActs res,
    pagesVisited := d.pagesVisited ++ (streamActions (collActs res)).2 }

/-- Case where `await agent.run()` returned normally: stream the action trace and the
structured output into the progress log and the data dict, build the payload,
store it under `resultKey` unless the cancellation flag is set, exit the
`async with` (releasing the lock) and run the `finally` clean-up. -/
def finishOk (s : Sys) (t : String) (r : Runner) (res : AgentResult) : Sys :=
  let canc := cGet s t
  let prog1 := aip s.progress t (runAppend res)
  let prog2 := if canc then prog1
               else mset prog1 (resultKey t) [Entry.payload (mkPayload res)]
  { s with progress := prog2,
           data := mset s.data t (updData ((s.data t).getD emptyTData) res),
           lock := none,
           agents := s.agents.erase t,
           cancelled := mdel s.cancelled t,
           runners := mset s.runners t
             { r with phase := Phase.done,
                      term := some (if canc then Term.withheld else Term.stored) } }

/-- Case where `await agent.run()` raised: the exception leaves the `async with`
(releasing the lock), `except Exception` appends the error line, and the
`finally` clean-up runs. -/
def finishErr (s : Sys) (t : String) (r : Runner) (m : String) : Sys :=
  { s with progress := aip s.progress t [Entry.line (errLine m)],
           lock := none,
           agents := s.agents.erase t,
           cancelled := mdel s.cancelled t,
           runners := mset s.runners t
             { r with phase := Phase.done, term := some Term.failed } }

/-- The whole post-`agent.run()` block, by outcome. -/
def finishE (s : Sys) (t : String) (r : Runner) : Sys :=
  match r.outcome with
  | AgentOutcome.ok res => finishOk s t r res
  | AgentOutcome.err m => finishErr s t r m

/-- Handler `POST /stop/{task_id}` when `task_id in _task_progress`: set the flag,
append the stopping line, drop the agent handle, append the stopped line.
(The `except` branch around the `del` is unreachable: membership is checked
in the same atomic block.) -/
def stopE (s : Sys) (t : String) : Sys :=
  { s with cancelled := mset s.cancelled t true,
           progress := aip (aip s.progress t [Entry.line stoppingLine]) t
             [Entry.line stoppedLine],
           agents := s.agents.erase t }

/-- One iteration of the `POST /stop-all` loop. -/
def stopOne (s : Sys) (t : String) : Sys :=
  { s with cancelled := mset s.cancelled t true,
           progress := aip s.progress t [Entry.line stoppingLine, Entry.line stoppedLine] }

/-- Handler `POST /stop-all`: iterate over `list(_running_agents.keys())`, then
`_running_agents.clear()`. -/
def stopAllE (s : Sys) : Sys :=
  { s.agents.foldl stopOne s with agents := [] }

/-! ## Query surface (pure reads) -/

/-- The response of `GET /progress/{task_id}`. -/
structure ProgressResp where
  messages : List Entry
  tdata : TData
  completed : Bool
deriving DecidableEq, Repr

/-- Test `entry.startswith("✓")`, as a code-point prefix test (a payload entry is
not a string; the heuristic is only ever evaluated on line entries in
reachable states). -/
def entryCheck (e : Entry) : Bool :=
  match e with
  | Entry.line s => "✓".data.isPrefixOf s.data
  | Entry.payload _ => false

/-- The derived `completed` flag of `GET /progress`. -/
def completedFlag (l : List Entry) : Bool :=
  !l.isEmpty && (l.getLast?.map entryCheck).getD false

/-- Handler `GET /progress/{task_id}`: `none` models the 404 response. -/
def getProgress (s : Sys) (t : String) : Option ProgressResp :=
  match s.progress t with
  | none => none
  | some l => some ⟨l, (s.data t).getD emptyTData, completedFlag l⟩

/-- Handler `GET /result/{task_id}`: `none` models the 404 response; otherwise
`_task_progress[result_key][0]`. -/
def getResult (s : Sys) (t : String) : Option Entry :=
  (s.progress (resultKey t)).bind List.head?

/-- The visible outcome of `POST /stop/{task_id}`. -/
inductive StopResult where
  | ok | notFound
deriving DecidableEq, Repr

/-- Handler `POST /stop/{task_id}` returns 404 exactly when
`task_id not in _task_progress`. -/
def stopResp (s : Sys) (t : String) : StopResult :=
  if (s.progress t).isSome then StopResult.ok else StopResult.notFound

/-! ## The step relation -/

/-- One atomic step of the service (see the module docstring for the
correspondence with the suspension points of the Python code). -/
inductive Step : Sys → Sys → Prop where
  | submit (s : Sys) (t : String) (o : AgentOutcome)
      (hf : freshFor s t) (hu : noUnd t) : Step s (submitE s t o)
  | initFlag (s : Sys) (t : String) (r : Runner)
      (hr : s.runners t = some r) (hp : r.phase = Phase.notStarted) :
      Step s (initFlagE s t r)
  | acquire (s : Sys) (t : String) (r : Runner)
      (hr : s.runners t = some r) (hp : r.phase = Phase.acquiring)
      (hl : s.lock = none) : Step s (acquireE s t r)
  | checkYes (s : Sys) (t : String) (r : Runner)
      (hr : s.runners t = some r) (hp : r.phase = Phase.checking)
      (hc : cGet s t = true) : Step s (checkYesE s t r)
  | checkNo (s : Sys) (t : String) (r : Runner)
      (hr : s.runners t = some r) (hp : r.phase = Phase.checking)
      (hc : cGet s t = false) : Step s (checkNoE s t r)
  | agentDone (s : Sys) (t : String) (r : Runner)
      (hr : s.runners t = some r) (hp : r.phase = Phase.running) :
      Step s (finishE s t r)
  | stopOk (s : Sys) (t : String)
      (hp : (s.progress t).isSome = true) : Step s (stopE s t)
  | stopAll (s : Sys) : Step s (stopAllE s)

/-- States reachable from process start. -/
def Reachable (s : Sys) : Prop := Relation.ReflTransGen Step initSys s

/-! ## Projection lemmas for the step effects -/

@[simp] theorem submitE_progress (s : Sys) (t : String) (o : AgentOutcome) :
    (submitE s t o).progress = s.progress := rfl
@[simp] theorem submitE_data (s : Sys) (t : String) (o : AgentOutcome) :
    (submitE s t o).data = s.data := rfl
@[simp] theorem submitE_cancelled (s : Sys) (t : String) (o : AgentOutcome) :
    (submitE s t o).cancelled = s.cancelled := rfl
@[simp] theorem submitE_agents (s : Sys) (t : String) (o : AgentOutcome) :
    (submitE s t o).agents = s.agents := rfl
@[simp] theorem submitE_runners (s : Sys) (t : String) (o : AgentOutcome) :
    (submitE s t o).runners = mset s.runners t ⟨Phase.notStarted, o, none⟩ := rfl
@[simp] theorem submitE_lock (s : Sys) (t : String) (o : AgentOutcome) :
    (submitE s t o).lock = s.lock := rfl

@[simp] theorem initFlagE_progress (s : Sys) (t : String) (r : Runner) :
    (initFlagE s t r).progress = s.progress := rfl
@[simp] theorem initFlagE_data (s : Sys) (t : String) (r : Runner) :
    (initFlagE s t r).data = s.data := rfl
@[simp] theorem initFlagE_cancelled (s : Sys) (t : String) (r : Runner) :
    (initFlagE s t r).cancelled = mset s.cancelled t false := rfl
@[simp] theorem initFlagE_agents (s : Sys) (t : String) (r : Runner) :
    (initFlagE s t r).agents = s.agents := rfl
@[simp] theorem initFlagE_runners (s : Sys) (t : String) (r : Runner) :
    (initFlagE s t r).runners = mset s.runners t { r with phase := Phase.acquiring } := rfl
@[simp] theorem initFlagE_lock (s : Sys) (t : String) (r : Runner) :
    (initFlagE s t r).lock = s.lock := rfl

@[simp] theorem acquireE_progress (s : Sys) (t : String) (r : Runner) :
    (acquireE s t r).progress = s.progress := rfl
@[simp] theorem acquireE_data (s : Sys) (t : String) (r : Runner) :
    (acquireE s t r).data = s.data := rfl
@[simp] theorem acquireE_cancelled (s : Sys) (t : String) (r : Runner) :
    (acquireE s t r).cancelled = s.cancelled := rfl
@[simp] theorem acquireE_agents (s : Sys) (t : String) (r : Runner) :
    (acquireE s t r).agents = s.agents := rfl
@[simp] theorem acquireE_runners (s : Sys) (t : String) (r : Runner) :
    (acquireE s t r).runners = mset s.runners t { r with phase := Phase.checking } := rfl
@[simp] theorem acquireE_lock (s : Sys) (t : String) (r : Runner) :
    (acquireE s t r).lock = some t := rfl

@[simp] theorem checkYesE_progress (s : Sys) (t : String) (r : Runner) :
    (checkYesE s t r).progress = aip s.progress t [Entry.line cancelLine] := rfl
@[simp] theorem checkYesE_data (s : Sys) (t : String) (r : Runner) :
    (checkYesE s t r).data = s.data := rfl
@[simp] theorem checkYesE_cancelled (s : Sys) (t : String) (r : Runner) :
    (checkYesE s t r).cancelled = mdel s.cancelled t := rfl
@[simp] theorem checkYesE_agents (s : Sys) (t : String) (r : Runner) :
    (checkYesE s t r).agents = s.agents.erase t := rfl
@[simp] theorem checkYesE_runners (s : Sys) (t : String) (r : Runner) :
    (checkYesE s t r).runners =
      mset s.runners t { r with phase := Phase.done, term := some Term.preCancelled } := rfl
@[simp] theorem checkYesE_lock (s : Sys) (t : String) (r : Runner) :
    (checkYesE s t r).lock = none := rfl

@[simp] theorem checkNoE_progress (s : Sys) (t : String) (r : Runner) :
    (checkNoE s t r).progress = mset s.progress t
      [Entry.line initLine, Entry.line connectedLine,
       Entry.line agentStartLine, Entry.line searchLine] := rfl
@[simp] theorem checkNoE_data (s : Sys) (t : String) (r : Runner) :
    (checkNoE s t r).data = mset s.data t emptyTData := rfl
@[simp] theorem checkNoE_cancelled (s : Sys) (t : String) (r : Runner) :
    (checkNoE s t r).cancelled = s.cancelled := rfl
@[simp] theorem checkNoE_agents (s : Sys) (t : String) (r : Runner) :
    (checkNoE s t r).agents = s.agents ++ [t] := rfl
@[simp] theorem checkNoE_runners (s : Sys) (t : String) (r : Runner) :
    (checkNoE s t r).runners = mset s.runners t { r with phase := Phase.running } := rfl
@[simp] theorem checkNoE_lock (s : Sys) (t : String) (r : Runner) :
    (checkNoE s t r).lock = s.lock := rfl

@[simp] theorem finishErr_progress (s : Sys) (t : String) (r : Runner) (m : String) :
    (finishErr s t r m).progress = aip s.progress t [Entry.line (errLine m)] := rfl
@[simp] theorem finishErr_data (s : Sys) (t : String) (r : Runner) (m : String) :
    (finishErr s t r m).data = s.data := rfl
@[simp] theorem finishErr_cancelled (s : Sys) (t : String) (r : Runner) (m : String) :
    (finishErr s t r m).cancelled = mdel s.cancelled t := rfl
@[simp] theorem finishErr_agents (s : Sys) (t : String) (r : Runner) (m : String) :
    (finishErr s t r m).agents = s.agents.erase t := rfl
@[simp] theorem finishErr_runners (s : Sys) (t : String) (r : Runner) (m : String) :
    (finishErr s t r m).runners =
      mset s.runners t { r with phase := Phase.done, term := some Term.failed } := rfl
@[simp] theorem finishErr_lock (s : Sys) (t : String) (r : Runner) (m : String) :
    (finishErr s t r m).lock = none := rfl

theorem finishOk_progress_true (s : Sys) (t : String) (r : Runner) (res : AgentResult)
    (h : cGet s t = true) :
    (finishOk s t r res).progress = aip s.progress t (runAppend res) := by
  simp [finishOk, h]

theorem finishOk_progress_false (s : Sys) (t : String) (r : Runner) (res : AgentResult)
    (h : cGet s t = false) :
    (finishOk s t r res).progress =
      mset (aip s.progress t (runAppend res)) (resultKey t) [Entry.payload (mkPayload res)] := by
  simp [finishOk, h]

@[simp] theorem finishOk_data (s : Sys) (t : String) (r : Runner) (res : AgentResult) :
    (finishOk s t r res).data =
      mset s.data t (updData ((s.data t).getD emptyTData) res) := rfl
@[simp] theorem finishOk_cancelled (s : Sys) (t : String) (r : Runner) (res : AgentResult) :
    (finishOk s t r res).cancelled = mdel s.cancelled t := rfl
@[simp] theorem finishOk_agents (s : Sys) (t : String) (r : Runner) (res : AgentResult) :
    (finishOk s t r res).agents = s.agents.erase t := rfl
@[simp] theorem finishOk_runners (s : Sys) (t : String) (r : Runner) (res : AgentResult) :
    (finishOk s t r res).runners = mset s.runners t
      { r with phase := Phase.done,
               term := some (if cGet s t then Term.withheld else Term.stored) } := rfl
@[simp] theorem finishOk_lock (s : Sys) (t : String) (r : Runner) (res : AgentResult) :
    (finishOk s t r res).lock = none := rfl

@[simp] theorem stopE_progress (s : Sys) (t : String) :
    (stopE s t).progress =
      aip (aip s.progress t [Entry.line stoppingLine]) t [Entry.line stoppedLine] := rfl
@[simp] theorem stopE_data (s : Sys) (t : String) : (stopE s t).data = s.data := rfl
@[simp] theorem stopE_cancelled (s : Sys) (t : String) :
    (stopE s t).cancelled = mset s.cancelled t true := rfl
@[simp] theorem stopE_agents (s : Sys) (t : String) :
    (stopE s t).agents = s.agents.erase t := rfl
@[simp] theorem stopE_runners (s : Sys) (t : String) : (stopE s t).runners = s.runners := rfl
@[simp] theorem stopE_lock (s : Sys) (t : String) : (stopE s t).lock = s.lock := rfl

@[simp] theorem stopOne_progress (s : Sys) (t : String) :
    (stopOne s t).progress =
      aip s.progress t [Entry.line stoppingLine, Entry.line stoppedLine] := rfl
@[simp] theorem stopOne_data (s : Sys) (t : String) : (stopOne s t).data = s.data := rfl
@[simp] theorem stopOne_cancelled (s : Sys) (t : String) :
    (stopOne s t).cancelled = mset s.cancelled t true := rfl
@[simp] theorem stopOne_agents (s : Sys) (t : String) : (stopOne s t).agents = s.agents := rfl
@[simp] theorem stopOne_runners (s : Sys) (t : String) : (stopOne s t).runners = s.runners := rfl
@[simp] theorem stopOne_lock (s : Sys) (t : String) : (stopOne s t).lock = s.lock := rfl

@[simp] theorem stopAllE_agents (s : Sys) : (stopAllE s).agents = [] := rfl
@[simp] theorem stopAllE_progress (s : Sys) :
    (stopAllE s).progress = (s.agents.foldl stopOne s).progress := rfl
@[simp] theorem stopAllE_data (s : Sys) :
    (stopAllE s).data = (s.agents.foldl stopOne s).data := rfl
@[simp] theorem stopAllE_cancelled (s : Sys) :
    (stopAllE s).cancelled = (s.agents.foldl stopOne s).cancelled := rfl
@[simp] theorem stopAllE_runners (s : Sys) :
    (stopAllE s).runners = (s.agents.foldl stopOne s).runners := rfl
@[simp] theorem stopAllE_lock (s : Sys) :
    (stopAllE s).lock = (s.agents.foldl stopOne s).lock := rfl

/-! ## Basic map lemmas -/

theorem mset_self {V : Type} (m : Map V) (k : String) (v : V) : mset m k v k = some v := by
  simp [mset]

theorem mset_ne {V : Type} (m : Map V) (k : String) (v : V) {x : String} (h : x ≠ k) :
    mset m k v x = m x := by
  simp [mset, h]

theorem mdel_self {V : Type} (m : Map V) (k : String) : mdel m k k = none := by
  simp [mdel]

theorem mdel_ne {V : Type} (m : Map V) (k : String) {x : String} (h : x ≠ k) :
    mdel m k x = m x := by
  simp [mdel, h]

theorem aip_ne (m : Map (List Entry)) (k : String) (xs : List Entry) {x : String}
    (h : x ≠ k) : aip m k xs x = m x := by
  unfold aip
  cases hm : m k with
  | none => rfl
  | some l => exact mset_ne m k (l ++ xs) h

theorem aip_self_of_some (m : Map (List Entry)) (k : String) (xs : List Entry) {l : List Entry}
    (h : m k = some l) : aip m k xs k = some (l ++ xs) := by
  unfold aip
  rw [h]
  exact mset_self m k (l ++ xs)

theorem aip_self_of_none (m : Map (List Entry)) (k : String) (xs : List Entry)
    (h : m k = none) : aip m k xs k = none := by
  unfold aip
  rw [h]
  exact h

theorem aip_isSome (m : Map (List Entry)) (k : String) (xs : List Entry) (x : String) :
    (aip m k xs x).isSome = (m x).isSome := by
  by_cases hx : x = k
  · subst hx
    cases hm : m x with
    | none => rw [aip_self_of_none m x xs hm]
    | some l => rw [aip_self_of_some m x xs hm]; rfl
  · rw [aip_ne m k xs hx]

/-- Every `aip` leaves a present entry as a (possibly trivial) extension. -/
theorem aip_extends (m : Map (List Entry)) (k : String) (xs : List Entry) (x : String)
    {l : List Entry} (h : m x = some l) : ∃ suf, aip m k xs x = some (l ++ suf) := by
  by_cases hx : x = k
  · subst hx
    exact ⟨xs, aip_self_of_some m x xs h⟩
  · exact ⟨[], by rw [aip_ne m k xs hx, h, List.append_nil]⟩

theorem aip_none_of_none (m : Map (List Entry)) (k : String) (xs : List Entry) (x : String)
    (h : m x = none) : aip m k xs x = none := by
  by_cases hx : x = k
  · subst hx
    exact aip_self_of_none m x xs h
  · rw [aip_ne m k xs hx]
    exact h

/-! ## Key-shape lemmas: issued ids never collide with result keys -/

theorem resultKey_data (t : String) : (resultKey t).data = t.data ++ "_result".data :=
  String.data_append t "_result"

theorem und_mem_resultKey (t : String) : '_' ∈ (resultKey t).data := by
  rw [resultKey_data]
  exact List.mem_append_right _ (by decide)

theorem noUnd_ne_resultKey {t : String} (h : noUnd t) (u : String) : t ≠ resultKey u := by
  intro he
  exact h (he ▸ und_mem_resultKey u)

theorem resultKey_inj {u v : String} (h : resultKey u = resultKey v) : u = v := by
  have hd : u.data ++ "_result".data = v.data ++ "_result".data := by
    rw [← resultKey_data, ← resultKey_data, h]
  exact String.ext (List.append_inj_left' hd rfl)

theorem resultKey_ne_self (t : String) : resultKey t ≠ t := by
  intro h
  have hd : t.data ++ "_result".data = t.data ++ [] := by
    rw [← resultKey_data, h, List.append_nil]
  have : "_result".data = ([] : List Char) := List.append_inj_right hd rfl
  simp at this

/-! ## The system invariant -/

/-- The runner currently holds the Execution Serializer (the phases between
lock grant and release). -/
def MidP (r : Runner) : Prop := r.phase = Phase.checking ∨ r.phase = Phase.running

/-- The runner has entered `_run_trend_finder` (so its progress entry
exists): it is either inside the agent call or finished through one of the
three exit paths that run after the log was initialised. -/
def EnteredP (r : Runner) : Prop :=
  r.phase = Phase.running ∨ (r.phase = Phase.done ∧ r.term ≠ some Term.preCancelled)

/-- Invariant of all reachable states. -/
structure Inv (s : Sys) : Prop where
  noUndIds : ∀ t r, s.runners t = some r → noUnd t
  progEntered : ∀ t r, s.runners t = some r → ((s.progress t).isSome = true ↔ EnteredP r)
  termPhase : ∀ t r, s.runners t = some r → r.phase ≠ Phase.done → r.term = none
  resStored : ∀ t r, s.runners t = some r → ∀ l, s.progress (resultKey t) = some l →
      r.term = some Term.stored ∧ ∃ p l2, l = Entry.payload p :: l2
  resAbsent : ∀ t r, s.runners t = some r → s.progress (resultKey t) = none →
      r.term ≠ some Term.stored
  prov : ∀ k, (s.progress k).isSome = true →
      (s.runners k).isSome = true ∨ ∃ u, k = resultKey u ∧ (s.runners u).isSome = true
  lockMid : ∀ t, s.lock = some t ↔ ∃ r, s.runners t = some r ∧ MidP r
  dataRun : ∀ t r, s.runners t = some r → r.phase = Phase.running →
      s.data t = some emptyTData

theorem inv_init : Inv initSys := by
  constructor <;> intro t <;> simp [initSys, EnteredP, MidP] at *

/-! ## Log extension (append-only) order on map cells -/

/-- Order stating that `b` extends `a`: an absent cell stays absent, a present list is only ever
appended to. -/
def ExtOpt (a b : Option (List Entry)) : Prop :=
  (a = none → b = none) ∧ ∀ l, a = some l → ∃ suf, b = some (l ++ suf)

theorem extOpt_refl (a : Option (List Entry)) : ExtOpt a a :=
  ⟨fun h => h, fun l h => ⟨[], by rw [h, List.append_nil]⟩⟩

theorem extOpt_trans {a b c : Option (List Entry)} (h1 : ExtOpt a b) (h2 : ExtOpt b c) :
    ExtOpt a c := by
  refine ⟨fun h => h2.1 (h1.1 h), fun l h => ?_⟩
  obtain ⟨s1, hb⟩ := h1.2 l h
  obtain ⟨s2, hc⟩ := h2.2 _ hb
  exact ⟨s1 ++ s2, by rw [hc, List.append_assoc]⟩

theorem extOpt_aip (m : Map (List Entry)) (k : String) (xs : List Entry) (x : String) :
    ExtOpt (m x) (aip m k xs x) :=
  ⟨aip_none_of_none m k xs x, fun _ h => aip_extends m k xs x h⟩

theorem mset_isSome_of_isSome {V : Type} {m : Map V} {k : String} {v : V} {x : String}
    (h : (m x).isSome = true) : (mset m k v x).isSome = true := by
  by_cases hx : x = k
  · subst hx; rw [mset_self]; rfl
  · rwa [mset_ne _ _ _ hx]

/-! ## Invariant preservation, one lemma per step kind -/

theorem inv_submitE {s : Sys} {t : String} {o : AgentOutcome}
    (hI : Inv s) (hf : freshFor s t) (hu : noUnd t) : Inv (submitE s t o) := by
  obtain ⟨hfp, hfd, hfc, hfa, hfr⟩ := hf
  constructor
  · intro u ru hru
    by_cases hut : u = t
    · subst hut; exact hu
    · exact hI.noUndIds u ru (by rwa [submitE_runners, mset_ne _ _ _ hut] at hru)
  · intro u ru hru
    simp only [submitE_runners, submitE_progress, submitE_lock, submitE_data, submitE_cancelled] at hru ⊢
    by_cases hut : u = t
    · subst hut
      rw [mset_self] at hru
      cases hru
      rw [hfp]
      simp [EnteredP]
    · rw [mset_ne _ _ _ hut] at hru
      exact hI.progEntered u ru hru
  · intro u ru hru _
    simp only [submitE_runners, submitE_progress, submitE_lock, submitE_data, submitE_cancelled] at hru
    by_cases hut : u = t
    · subst hut; rw [mset_self] at hru; cases hru; rfl
    · rw [mset_ne _ _ _ hut] at hru
      exact hI.termPhase u ru hru (by assumption)
  · intro u ru hru l hl
    simp only [submitE_runners, submitE_progress, submitE_lock, submitE_data, submitE_cancelled] at hru hl
    by_cases hut : u = t
    · subst hut
      rw [mset_self] at hru
      cases hru
      exfalso
      have hsome : (s.progress (resultKey u)).isSome = true := by rw [hl]; rfl
      rcases hI.prov _ hsome with hrk | ⟨v, hv, hvs⟩
      · obtain ⟨rk, hrk⟩ := Option.isSome_iff_exists.mp hrk
        exact (hI.noUndIds _ rk hrk) (und_mem_resultKey u)
      · rw [resultKey_inj hv] at hfr
        rw [hfr] at hvs
        exact Bool.noConfusion hvs
    · rw [mset_ne _ _ _ hut] at hru
      exact hI.resStored u ru hru l hl
  · intro u ru hru hnone
    simp only [submitE_runners, submitE_progress, submitE_lock, submitE_data, submitE_cancelled] at hru hnone
    by_cases hut : u = t
    · subst hut; rw [mset_self] at hru; cases hru; simp
    · rw [mset_ne _ _ _ hut] at hru
      exact hI.resAbsent u ru hru hnone
  · intro k hk
    simp only [submitE_runners, submitE_progress, submitE_lock, submitE_data, submitE_cancelled] at hk ⊢
    rcases hI.prov k hk with h | ⟨u, hu2, hus⟩
    · exact Or.inl (mset_isSome_of_isSome h)
    · exact Or.inr ⟨u, hu2, mset_isSome_of_isSome hus⟩
  · intro u
    simp only [submitE_runners, submitE_lock]
    constructor
    · intro hl
      obtain ⟨ru, hru, hm⟩ := (hI.lockMid u).mp hl
      by_cases hut : u = t
      · subst hut; rw [hfr] at hru; exact Option.noConfusion hru
      · exact ⟨ru, by rw [mset_ne _ _ _ hut]; exact hru, hm⟩
    · rintro ⟨ru, hru, hm⟩
      by_cases hut : u = t
      · subst hut
        rw [mset_self] at hru
        cases hru
        rcases hm with hm | hm <;> exact Phase.noConfusion hm
      · rw [mset_ne _ _ _ hut] at hru
        exact (hI.lockMid u).mpr ⟨ru, hru, hm⟩
  · intro u ru hru hph
    simp only [submitE_runners, submitE_progress, submitE_lock, submitE_data, submitE_cancelled] at hru ⊢
    by_cases hut : u = t
    · subst hut
      rw [mset_self] at hru
      cases hru
      exact Phase.noConfusion hph
    · rw [mset_ne _ _ _ hut] at hru
      exact hI.dataRun u ru hru hph

theorem inv_initFlagE {s : Sys} {t : String} {r : Runner}
    (hI : Inv s) (hr : s.runners t = some r) (hp : r.phase = Phase.notStarted) :
    Inv (initFlagE s t r) := by
  have hterm : r.term = none :=
    hI.termPhase t r hr (by rw [hp]; exact fun h => Phase.noConfusion h)
  constructor
  · intro u ru hru
    simp only [initFlagE_runners] at hru
    by_cases hut : u = t
    · subst hut; exact hI.noUndIds u r hr
    · rw [mset_ne _ _ _ hut] at hru
      exact hI.noUndIds u ru hru
  · intro u ru hru
    simp only [initFlagE_runners, initFlagE_progress] at hru ⊢
    by_cases hut : u = t
    · subst hut
      rw [mset_self] at hru
      cases hru
      have hold := hI.progEntered u r hr
      constructor
      · intro hsome
        exfalso
        rcases hold.mp hsome with h | ⟨h, _⟩ <;> rw [hp] at h <;> exact Phase.noConfusion h
      · intro hE
        rcases hE with h | ⟨h, _⟩ <;> exact Phase.noConfusion h
    · rw [mset_ne _ _ _ hut] at hru
      exact hI.progEntered u ru hru
  · intro u ru hru _
    simp only [initFlagE_runners] at hru
    by_cases hut : u = t
    · subst hut
      rw [mset_self] at hru
      cases hru
      exact hterm
    · rw [mset_ne _ _ _ hut] at hru
      exact hI.termPhase u ru hru (by assumption)
  · intro u ru hru l hl
    simp only [initFlagE_runners, initFlagE_progress] at hru hl
    by_cases hut : u = t
    · subst hut
      rw [mset_self] at hru
      cases hru
      exfalso
      have := (hI.resStored u r hr l hl).1
      rw [hterm] at this
      exact Option.noConfusion this
    · rw [mset_ne _ _ _ hut] at hru
      exact hI.resStored u ru hru l hl
  · intro u ru hru hnone
    simp only [initFlagE_runners, initFlagE_progress] at hru hnone
    by_cases hut : u = t
    · subst hut
      rw [mset_self] at hru
      cases hru
      show r.term ≠ some Term.stored
      rw [hterm]
      exact fun h => Option.noConfusion h
    · rw [mset_ne _ _ _ hut] at hru
      exact hI.resAbsent u ru hru hnone
  · intro k hk
    simp only [initFlagE_progress] at hk
    simp only [initFlagE_runners]
    rcases hI.prov k hk with h | ⟨u, hu2, hus⟩
    · exact Or.inl (mset_isSome_of_isSome h)
    · exact Or.inr ⟨u, hu2, mset_isSome_of_isSome hus⟩
  · intro u
    simp only [initFlagE_runners, initFlagE_lock]
    constructor
    · intro hl
      obtain ⟨ru, hru, hm⟩ := (hI.lockMid u).mp hl
      by_cases hut : u = t
      · subst hut
        rw [hr] at hru
        cases hru
        exfalso
        rcases hm with h | h <;> rw [hp] at h <;> exact Phase.noConfusion h
      · exact ⟨ru, by rw [mset_ne _ _ _ hut]; exact hru, hm⟩
    · rintro ⟨ru, hru, hm⟩
      by_cases hut : u = t
      · subst hut
        rw [mset_self] at hru
        cases hru
        exfalso
        rcases hm with h | h <;> exact Phase.noConfusion h
      · rw [mset_ne _ _ _ hut] at hru
        exact (hI.lockMid u).mpr ⟨ru, hru, hm⟩
  · intro u ru hru hph
    simp only [initFlagE_runners, initFlagE_data] at hru ⊢
    by_cases hut : u = t
    · subst hut
      rw [mset_self] at hru
      cases hru
      exact Phase.noConfusion hph
    · rw [mset_ne _ _ _ hut] at hru
      exact hI.dataRun u ru hru hph

theorem inv_acquireE {s : Sys} {t : String} {r : Runner}
    (hI : Inv s) (hr : s.runners t = some r) (hp : r.phase = Phase.acquiring)
    (hl : s.lock = none) : Inv (acquireE s t r) := by
  have hterm : r.term = none :=
    hI.termPhase t r hr (by rw [hp]; exact fun h => Phase.noConfusion h)
  constructor
  · intro u ru hru
    simp only [acquireE_runners] at hru
    by_cases hut : u = t
    · subst hut; exact hI.noUndIds u r hr
    · rw [mset_ne _ _ _ hut] at hru
      exact hI.noUndIds u ru hru
  · intro u ru hru
    simp only [acquireE_runners, acquireE_progress] at hru ⊢
    by_cases hut : u = t
    · subst hut
      rw [mset_self] at hru
      cases hru
      have hold := hI.progEntered u r hr
      constructor
      · intro hsome
        exfalso
        rcases hold.mp hsome with h | ⟨h, _⟩ <;> rw [hp] at h <;> exact Phase.noConfusion h
      · intro hE
        rcases hE with h | ⟨h, _⟩ <;> exact Phase.noConfusion h
    · rw [mset_ne _ _ _ hut] at hru
      exact hI.progEntered u ru hru
  · intro u ru hru _
    simp only [acquireE_runners] at hru
    by_cases hut : u = t
    · subst hut
      rw [mset_self] at hru
      cases hru
      exact hterm
    · rw [mset_ne _ _ _ hut] at hru
      exact hI.termPhase u ru hru (by assumption)
  · intro u ru hru l hl2
    simp only [acquireE_runners, acquireE_progress] at hru hl2
    by_cases hut : u = t
    · subst hut
      rw [mset_self] at hru
      cases hru
      exfalso
      have := (hI.resStored u r hr l hl2).1
      rw [hterm] at this
      exact Option.noConfusion this
    · rw [mset_ne _ _ _ hut] at hru
      exact hI.resStored u ru hru l hl2
  · intro u ru hru hnone
    simp only [acquireE_runners, acquireE_progress] at hru hnone
    by_cases hut : u = t
    · subst hut
      rw [mset_self] at hru
      cases hru
      show r.term ≠ some Term.stored
      rw [hterm]
      exact fun h => Option.noConfusion h
    · rw [mset_ne _ _ _ hut] at hru
      exact hI.resAbsent u ru hru hnone
  · intro k hk
    simp only [acquireE_progress] at hk
    simp only [acquireE_runners]
    rcases hI.prov k hk with h | ⟨u, hu2, hus⟩
    · exact Or.inl (mset_isSome_of_isSome h)
    · exact Or.inr ⟨u, hu2, mset_isSome_of_isSome hus⟩
  · intro u
    simp only [acquireE_runners, acquireE_lock]
    constructor
    · intro hlu
      cases hlu
      exact ⟨{ r with phase := Phase.checking }, mset_self _ _ _, Or.inl rfl⟩
    · rintro ⟨ru, hru, hm⟩
      by_cases hut : u = t
      · subst hut; rfl
      · exfalso
        rw [mset_ne _ _ _ hut] at hru
        have := (hI.lockMid u).mpr ⟨ru, hru, hm⟩
        rw [hl] at this
        exact Option.noConfusion this
  · intro u ru hru hph
    simp only [acquireE_runners, acquireE_data] at hru ⊢
    by_cases hut : u = t
    · subst hut
      rw [mset_self] at hru
      cases hru
      exact Phase.noConfusion hph
    · rw [mset_ne _ _ _ hut] at hru
      exact hI.dataRun u ru hru hph

theorem inv_checkYesE {s : Sys} {t : String} {r : Runner}
    (hI : Inv s) (hr : s.runners t = some r) (hp : r.phase = Phase.checking) :
    Inv (checkYesE s t r) := by
  have hterm : r.term = none :=
    hI.termPhase t r hr (by rw [hp]; exact fun h => Phase.noConfusion h)
  have hprogNone : s.progress t = none := by
    have hold := hI.progEntered t r hr
    cases hsp : s.progress t with
    | none => rfl
    | some l =>
        exfalso
        have : (s.progress t).isSome = true := by rw [hsp]; rfl
        rcases hold.mp this with h | ⟨h, _⟩ <;> rw [hp] at h <;> exact Phase.noConfusion h
  constructor
  · intro u ru hru
    simp only [checkYesE_runners] at hru
    by_cases hut : u = t
    · subst hut; exact hI.noUndIds u r hr
    · rw [mset_ne _ _ _ hut] at hru
      exact hI.noUndIds u ru hru
  · intro u ru hru
    simp only [checkYesE_runners, checkYesE_progress] at hru ⊢
    by_cases hut : u = t
    · subst hut
      rw [mset_self] at hru
      cases hru
      rw [aip_self_of_none _ _ _ hprogNone]
      constructor
      · intro h; exact Bool.noConfusion h
      · intro hE
        exfalso
        rcases hE with h | ⟨_, h⟩
        · exact Phase.noConfusion h
        · exact h rfl
    · rw [aip_ne _ _ _ hut]
      rw [mset_ne _ _ _ hut] at hru
      exact hI.progEntered u ru hru
  · intro u ru hru hnd
    simp only [checkYesE_runners] at hru
    by_cases hut : u = t
    · subst hut
      rw [mset_self] at hru
      cases hru
      exact absurd rfl hnd
    · rw [mset_ne _ _ _ hut] at hru
      exact hI.termPhase u ru hru hnd
  · intro u ru hru l hl
    simp only [checkYesE_runners, checkYesE_progress] at hru hl
    have hne : resultKey u ≠ t := by
      intro h
      exact (hI.noUndIds t r hr) (h ▸ und_mem_resultKey u)
    rw [aip_ne _ _ _ hne] at hl
    by_cases hut : u = t
    · subst hut
      rw [mset_self] at hru
      cases hru
      exfalso
      have := (hI.resStored u r hr l hl).1
      rw [hterm] at this
      exact Option.noConfusion this
    · rw [mset_ne _ _ _ hut] at hru
      exact hI.resStored u ru hru l hl
  · intro u ru hru hnone
    simp only [checkYesE_runners, checkYesE_progress] at hru hnone
    have hne : resultKey u ≠ t := by
      intro h
      exact (hI.noUndIds t r hr) (h ▸ und_mem_resultKey u)
    rw [aip_ne _ _ _ hne] at hnone
    by_cases hut : u = t
    · subst hut
      rw [mset_self] at hru
      cases hru
      exact fun h => Term.noConfusion (Option.some.inj h)
    · rw [mset_ne _ _ _ hut] at hru
      exact hI.resAbsent u ru hru hnone
  · intro k hk
    simp only [checkYesE_progress] at hk
    simp only [checkYesE_runners]
    rw [aip_isSome] at hk
    rcases hI.prov k hk with h | ⟨u, hu2, hus⟩
    · exact Or.inl (mset_isSome_of_isSome h)
    · exact Or.inr ⟨u, hu2, mset_isSome_of_isSome hus⟩
  · intro u
    simp only [checkYesE_runners, checkYesE_lock]
    constructor
    · intro h; exact Option.noConfusion h
    · rintro ⟨ru, hru, hm⟩
      exfalso
      by_cases hut : u = t
      · subst hut
        rw [mset_self] at hru
        cases hru
        rcases hm with h | h <;> exact Phase.noConfusion h
      · rw [mset_ne _ _ _ hut] at hru
        have h1 := (hI.lockMid u).mpr ⟨ru, hru, hm⟩
        have h2 := (hI.lockMid t).mpr ⟨r, hr, Or.inl hp⟩
        rw [h1] at h2
        cases h2
        exact hut rfl
  · intro u ru hru hph
    simp only [checkYesE_runners, checkYesE_data] at hru ⊢
    by_cases hut : u = t
    · subst hut
      rw [mset_self] at hru
      cases hru
      exact Phase.noConfusion hph
    · rw [mset_ne _ _ _ hut] at hru
      exact hI.dataRun u ru hru hph

theorem inv_checkNoE {s : Sys} {t : String} {r : Runner}
    (hI : Inv s) (hr : s.runners t = some r) (hp : r.phase = Phase.checking) :
    Inv (checkNoE s t r) := by
  have hterm : r.term = none :=
    hI.termPhase t r hr (by rw [hp]; exact fun h => Phase.noConfusion h)
  constructor
  · intro u ru hru
    simp only [checkNoE_runners] at hru
    by_cases hut : u = t
    · subst hut; exact hI.noUndIds u r hr
    · rw [mset_ne _ _ _ hut] at hru
      exact hI.noUndIds u ru hru
  · intro u ru hru
    simp only [checkNoE_runners, checkNoE_progress] at hru ⊢
    by_cases hut : u = t
    · subst hut
      rw [mset_self] at hru
      cases hru
      rw [mset_self]
      constructor
      · intro _; exact Or.inl rfl
      · intro _; rfl
    · rw [mset_ne _ _ _ hut]
      rw [mset_ne _ _ _ hut] at hru
      exact hI.progEntered u ru hru
  · intro u ru hru hnd
    simp only [checkNoE_runners] at hru
    by_cases hut : u = t
    · subst hut
      rw [mset_self] at hru
      cases hru
      exact hterm
    · rw [mset_ne _ _ _ hut] at hru
      exact hI.termPhase u ru hru hnd
  · intro u ru hru l hl
    simp only [checkNoE_runners, checkNoE_progress] at hru hl
    have hne : resultKey u ≠ t := by
      intro h
      exact (hI.noUndIds t r hr) (h ▸ und_mem_resultKey u)
    rw [mset_ne _ _ _ hne] at hl
    by_cases hut : u = t
    · subst hut
      rw [mset_self] at hru
      cases hru
      exfalso
      have := (hI.resStored u r hr l hl).1
      rw [hterm] at this
      exact Option.noConfusion this
    · rw [mset_ne _ _ _ hut] at hru
      exact hI.resStored u ru hru l hl
  · intro u ru hru hnone
    simp only [checkNoE_runners, checkNoE_progress] at hru hnone
    have hne : resultKey u ≠ t := by
      intro h
      exact (hI.noUndIds t r hr) (h ▸ und_mem_resultKey u)
    rw [mset_ne _ _ _ hne] at hnone
    by_cases hut : u = t
    · subst hut
      rw [mset_self] at hru
      cases hru
      show r.term ≠ some Term.stored
      rw [hterm]
      exact fun h => Option.noConfusion h
    · rw [mset_ne _ _ _ hut] at hru
      exact hI.resAbsent u ru hru hnone
  · intro k hk
    simp only [checkNoE_progress] at hk
    simp only [checkNoE_runners]
    by_cases hkt : k = t
    · subst hkt
      exact Or.inl (by rw [mset_self]; rfl)
    · rw [mset_ne _ _ _ hkt] at hk
      rcases hI.prov k hk with h | ⟨u, hu2, hus⟩
      · exact Or.inl (mset_isSome_of_isSome h)
      · exact Or.inr ⟨u, hu2, mset_isSome_of_isSome hus⟩
  · intro u
    simp only [checkNoE_runners, checkNoE_lock]
    constructor
    · intro hl
      obtain ⟨ru, hru, hm⟩ := (hI.lockMid u).mp hl
      by_cases hut : u = t
      · subst hut
        exact ⟨{ r with phase := Phase.running }, mset_self _ _ _, Or.inr rfl⟩
      · exact ⟨ru, by rw [mset_ne _ _ _ hut]; exact hru, hm⟩
    · rintro ⟨ru, hru, hm⟩
      by_cases hut : u = t
      · subst hut
        exact (hI.lockMid u).mpr ⟨r, hr, Or.inl hp⟩
      · rw [mset_ne _ _ _ hut] at hru
        exact (hI.lockMid u).mpr ⟨ru, hru, hm⟩
  · intro u ru hru hph
    simp only [checkNoE_runners, checkNoE_data] at hru ⊢
    by_cases hut : u = t
    · subst hut
      rw [mset_self]
    · rw [mset_ne _ _ _ hut] at hru
      rw [mset_ne _ _ _ hut]
      exact hI.dataRun u ru hru hph

theorem inv_finishErr {s : Sys} {t : String} {r : Runner} {m : String}
    (hI : Inv s) (hr : s.runners t = some r) (hp : r.phase = Phase.running) :
    Inv (finishErr s t r m) := by
  have hterm : r.term = none :=
    hI.termPhase t r hr (by rw [hp]; exact fun h => Phase.noConfusion h)
  constructor
  · intro u ru hru
    simp only [finishErr_runners] at hru
    by_cases hut : u = t
    · subst hut; exact hI.noUndIds u r hr
    · rw [mset_ne _ _ _ hut] at hru
      exact hI.noUndIds u ru hru
  · intro u ru hru
    simp only [finishErr_runners, finishErr_progress] at hru ⊢
    by_cases hut : u = t
    · subst hut
      rw [mset_self] at hru
      cases hru
      constructor
      · intro _
        exact Or.inr ⟨rfl, fun h => Term.noConfusion (Option.some.inj h)⟩
      · intro _
        rw [aip_isSome]
        exact (hI.progEntered u r hr).mpr (Or.inl hp)
    · rw [aip_ne _ _ _ hut]
      rw [mset_ne _ _ _ hut] at hru
      exact hI.progEntered u ru hru
  · intro u ru hru hnd
    simp only [finishErr_runners] at hru
    by_cases hut : u = t
    · subst hut
      rw [mset_self] at hru
      cases hru
      exact absurd rfl hnd
    · rw [mset_ne _ _ _ hut] at hru
      exact hI.termPhase u ru hru hnd
  · intro u ru hru l hl
    simp only [finishErr_runners, finishErr_progress] at hru hl
    have hne : resultKey u ≠ t := fun h => (hI.noUndIds t r hr) (h ▸ und_mem_resultKey u)
    rw [aip_ne _ _ _ hne] at hl
    by_cases hut : u = t
    · subst hut
      rw [mset_self] at hru
      cases hru
      exfalso
      have := (hI.resStored u r hr l hl).1
      rw [hterm] at this
      exact Option.noConfusion this
    · rw [mset_ne _ _ _ hut] at hru
      exact hI.resStored u ru hru l hl
  · intro u ru hru hnone
    simp only [finishErr_runners, finishErr_progress] at hru hnone
    have hne : resultKey u ≠ t := fun h => (hI.noUndIds t r hr) (h ▸ und_mem_resultKey u)
    rw [aip_ne _ _ _ hne] at hnone
    by_cases hut : u = t
    · subst hut
      rw [mset_self] at hru
      cases hru
      exact fun h => Term.noConfusion (Option.some.inj h)
    · rw [mset_ne _ _ _ hut] at hru
      exact hI.resAbsent u ru hru hnone
  · intro k hk
    simp only [finishErr_progress] at hk
    simp only [finishErr_runners]
    rw [aip_isSome] at hk
    rcases hI.prov k hk with h | ⟨u, hu2, hus⟩
    · exact Or.inl (mset_isSome_of_isSome h)
    · exact Or.inr ⟨u, hu2, mset_isSome_of_isSome hus⟩
  · intro u
    simp only [finishErr_runners, finishErr_lock]
    constructor
    · intro h; exact Option.noConfusion h
    · rintro ⟨ru, hru, hm⟩
      exfalso
      by_cases hut : u = t
      · subst hut
        rw [mset_self] at hru
        cases hru
        rcases hm with h | h <;> exact Phase.noConfusion h
      · rw [mset_ne _ _ _ hut] at hru
        have h1 := (hI.lockMid u).mpr ⟨ru, hru, hm⟩
        have h2 := (hI.lockMid t).mpr ⟨r, hr, Or.inr hp⟩
        rw [h1] at h2
        cases h2
        exact hut rfl
  · intro u ru hru hph
    simp only [finishErr_runners, finishErr_data] at hru ⊢
    by_cases hut : u = t
    · subst hut
      rw [mset_self] at hru
      cases hru
      exact Phase.noConfusion hph
    · rw [mset_ne _ _ _ hut] at hru
      exact hI.dataRun u ru hru hph

theorem inv_finishOk {s : Sys} {t : String} {r : Runner} {res : AgentResult}
    (hI : Inv s) (hr : s.runners t = some r) (hp : r.phase = Phase.running) :
    Inv (finishOk s t r res) := by
  have hterm : r.term = none :=
    hI.termPhase t r hr (by rw [hp]; exact fun h => Phase.noConfusion h)
  have htne : ∀ u : String, resultKey u ≠ t :=
    fun u h => (hI.noUndIds t r hr) (h ▸ und_mem_resultKey u)
  constructor
  · intro u ru hru
    simp only [finishOk_runners] at hru
    by_cases hut : u = t
    · subst hut; exact hI.noUndIds u r hr
    · rw [mset_ne _ _ _ hut] at hru
      exact hI.noUndIds u ru hru
  · intro u ru hru
    simp only [finishOk_runners] at hru
    by_cases hut : u = t
    · subst hut
      rw [mset_self] at hru
      cases hru
      constructor
      · intro _
        refine Or.inr ⟨rfl, ?_⟩
        cases hc : cGet s u <;> simp [hc]
      · intro _
        cases hc : cGet s u with
        | false =>
            rw [finishOk_progress_false s u r res hc,
                mset_ne _ _ _ (Ne.symm (resultKey_ne_self u)), aip_isSome]
            exact (hI.progEntered u r hr).mpr (Or.inl hp)
        | true =>
            rw [finishOk_progress_true s u r res hc, aip_isSome]
            exact (hI.progEntered u r hr).mpr (Or.inl hp)
    · rw [mset_ne _ _ _ hut] at hru
      by_cases hukey : u = resultKey t
      · exfalso
        exact (hI.noUndIds u ru hru) (hukey ▸ und_mem_resultKey t)
      · have hprog : (finishOk s t r res).progress u = s.progress u := by
          cases hc : cGet s t with
          | true => rw [finishOk_progress_true s t r res hc, aip_ne _ _ _ hut]
          | false =>
              rw [finishOk_progress_false s t r res hc, mset_ne _ _ _ hukey,
                  aip_ne _ _ _ hut]
        rw [hprog]
        exact hI.progEntered u ru hru
  · intro u ru hru hnd
    simp only [finishOk_runners] at hru
    by_cases hut : u = t
    · subst hut
      rw [mset_self] at hru
      cases hru
      exact absurd rfl hnd
    · rw [mset_ne _ _ _ hut] at hru
      exact hI.termPhase u ru hru hnd
  · intro u ru hru l hl
    simp only [finishOk_runners] at hru
    by_cases hut : u = t
    · subst hut
      rw [mset_self] at hru
      cases hru
      cases hc : cGet s u with
      | true =>
          exfalso
          rw [finishOk_progress_true s u r res hc, aip_ne _ _ _ (htne u)] at hl
          have := (hI.resStored u r hr l hl).1
          rw [hterm] at this
          exact Option.noConfusion this
      | false =>
          rw [finishOk_progress_false s u r res hc, mset_self] at hl
          cases hl
          refine ⟨by simp [hc], ⟨mkPayload res, [], rfl⟩⟩
    · rw [mset_ne _ _ _ hut] at hru
      have hkne : resultKey u ≠ resultKey t := fun h => hut (resultKey_inj h)
      have hprog : (finishOk s t r res).progress (resultKey u) = s.progress (resultKey u) := by
        cases hc : cGet s t with
        | true => rw [finishOk_progress_true s t r res hc, aip_ne _ _ _ (htne u)]
        | false =>
            rw [finishOk_progress_false s t r res hc, mset_ne _ _ _ hkne,
                aip_ne _ _ _ (htne u)]
      rw [hprog] at hl
      exact hI.resStored u ru hru l hl
  · intro u ru hru hnone
    simp only [finishOk_runners] at hru
    by_cases hut : u = t
    · subst hut
      rw [mset_self] at hru
      cases hru
      cases hc : cGet s u with
      | true => simp [hc]
      | false =>
          exfalso
          rw [finishOk_progress_false s u r res hc, mset_self] at hnone
          exact Option.noConfusion hnone
    · rw [mset_ne _ _ _ hut] at hru
      have hkne : resultKey u ≠ resultKey t := fun h => hut (resultKey_inj h)
      have hprog : (finishOk s t r res).progress (resultKey u) = s.progress (resultKey u) := by
        cases hc : cGet s t with
        | true => rw [finishOk_progress_true s t r res hc, aip_ne _ _ _ (htne u)]
        | false =>
            rw [finishOk_progress_false s t r res hc, mset_ne _ _ _ hkne,
                aip_ne _ _ _ (htne u)]
      rw [hprog] at hnone
      exact hI.resAbsent u ru hru hnone
  · intro k hk
    simp only [finishOk_runners]
    cases hc : cGet s t with
    | true =>
        rw [finishOk_progress_true s t r res hc, aip_isSome] at hk
        rcases hI.prov k hk with h | ⟨u, hu2, hus⟩
        · exact Or.inl (mset_isSome_of_isSome h)
        · exact Or.inr ⟨u, hu2, mset_isSome_of_isSome hus⟩
    | false =>
        by_cases hkk : k = resultKey t
        · subst hkk
          refine Or.inr ⟨t, rfl, ?_⟩
          rw [mset_self]
          rfl
        · rw [finishOk_progress_false s t r res hc, mset_ne _ _ _ hkk, aip_isSome] at hk
          rcases hI.prov k hk with h | ⟨u, hu2, hus⟩
          · exact Or.inl (mset_isSome_of_isSome h)
          · exact Or.inr ⟨u, hu2, mset_isSome_of_isSome hus⟩
  · intro u
    simp only [finishOk_runners, finishOk_lock]
    constructor
    · intro h; exact Option.noConfusion h
    · rintro ⟨ru, hru, hm⟩
      exfalso
      by_cases hut : u = t
      · subst hut
        rw [mset_self] at hru
        cases hru
        rcases hm with h | h <;> exact Phase.noConfusion h
      · rw [mset_ne _ _ _ hut] at hru
        have h1 := (hI.lockMid u).mpr ⟨ru, hru, hm⟩
        have h2 := (hI.lockMid t).mpr ⟨r, hr, Or.inr hp⟩
        rw [h1] at h2
        cases h2
        exact hut rfl
  · intro u ru hru hph
    simp only [finishOk_runners, finishOk_data] at hru ⊢
    by_cases hut : u = t
    · subst hut
      rw [mset_self] at hru
      cases hru
      exact Phase.noConfusion hph
    · rw [mset_ne _ _ _ hut] at hru
      rw [mset_ne _ _ _ hut]
      exact hI.dataRun u ru hru hph

theorem inv_stopE {s : Sys} {t : String} (hI : Inv s) : Inv (stopE s t) := by
  have hext : ∀ x, ExtOpt (s.progress x) ((stopE s t).progress x) := by
    intro x
    rw [stopE_progress]
    exact extOpt_trans (extOpt_aip _ _ _ _) (extOpt_aip _ _ _ _)
  have hsome : ∀ x, ((stopE s t).progress x).isSome = (s.progress x).isSome := by
    intro x
    rw [stopE_progress, aip_isSome, aip_isSome]
  constructor
  · intro u ru hru
    rw [stopE_runners] at hru
    exact hI.noUndIds u ru hru
  · intro u ru hru
    rw [stopE_runners] at hru
    rw [hsome u]
    exact hI.progEntered u ru hru
  · intro u ru hru hnd
    rw [stopE_runners] at hru
    exact hI.termPhase u ru hru hnd
  · intro u ru hru l hl
    rw [stopE_runners] at hru
    cases hold : s.progress (resultKey u) with
    | none =>
        exfalso
        rw [(hext (resultKey u)).1 hold] at hl
        exact Option.noConfusion hl
    | some l0 =>
        obtain ⟨suf, hsuf⟩ := (hext (resultKey u)).2 l0 hold
        rw [hsuf] at hl
        cases hl
        obtain ⟨ht, p, l2, hl0⟩ := hI.resStored u ru hru l0 hold
        exact ⟨ht, p, l2 ++ suf, by rw [hl0, List.cons_append]⟩
  · intro u ru hru hnone
    rw [stopE_runners] at hru
    cases hold : s.progress (resultKey u) with
    | none => exact hI.resAbsent u ru hru hold
    | some l0 =>
        exfalso
        obtain ⟨suf, hsuf⟩ := (hext (resultKey u)).2 l0 hold
        rw [hsuf] at hnone
        exact Option.noConfusion hnone
  · intro k hk
    rw [hsome k] at hk
    rw [stopE_runners]
    exact hI.prov k hk
  · intro u
    rw [stopE_runners, stopE_lock]
    exact hI.lockMid u
  · intro u ru hru hph
    rw [stopE_runners] at hru
    rw [stopE_data]
    exact hI.dataRun u ru hru hph

/-! ### `stop-all` fold lemmas -/

theorem foldl_stopOne_runners (L : List String) (s : Sys) :
    (L.foldl stopOne s).runners = s.runners := by
  induction L generalizing s with
  | nil => rfl
  | cons a L ih => rw [List.foldl_cons, ih, stopOne_runners]

theorem foldl_stopOne_lock (L : List String) (s : Sys) :
    (L.foldl stopOne s).lock = s.lock := by
  induction L generalizing s with
  | nil => rfl
  | cons a L ih => rw [List.foldl_cons, ih, stopOne_lock]

theorem foldl_stopOne_data (L : List String) (s : Sys) :
    (L.foldl stopOne s).data = s.data := by
  induction L generalizing s with
  | nil => rfl
  | cons a L ih => rw [List.foldl_cons, ih, stopOne_data]

theorem foldl_stopOne_prog_isSome (L : List String) (s : Sys) (x : String) :
    ((L.foldl stopOne s).progress x).isSome = (s.progress x).isSome := by
  induction L generalizing s with
  | nil => rfl
  | cons a L ih => rw [List.foldl_cons, ih, stopOne_progress, aip_isSome]

theorem foldl_stopOne_prog_ext (L : List String) (s : Sys) (x : String) :
    ExtOpt (s.progress x) ((L.foldl stopOne s).progress x) := by
  induction L generalizing s with
  | nil => exact extOpt_refl _
  | cons a L ih =>
      rw [List.foldl_cons]
      refine extOpt_trans ?_ (ih (stopOne s a))
      rw [stopOne_progress]
      exact extOpt_aip _ _ _ _

theorem cGet_stopOne_true {s : Sys} {u : String} (a : String) (h : cGet s u = true) :
    cGet (stopOne s a) u = true := by
  unfold cGet
  rw [stopOne_cancelled]
  by_cases hua : u = a
  · subst hua; rw [mset_self]; rfl
  · rw [mset_ne _ _ _ hua]; exact h

theorem foldl_stopOne_cGet_true (L : List String) {s : Sys} {u : String}
    (h : cGet s u = true) : cGet (L.foldl stopOne s) u = true := by
  induction L generalizing s with
  | nil => exact h
  | cons a L ih => rw [List.foldl_cons]; exact ih (cGet_stopOne_true a h)

theorem inv_stopAllE {s : Sys} (hI : Inv s) : Inv (stopAllE s) := by
  have hrun : (stopAllE s).runners = s.runners := by
    rw [stopAllE_runners, foldl_stopOne_runners]
  have hlock : (stopAllE s).lock = s.lock := by
    rw [stopAllE_lock, foldl_stopOne_lock]
  have hdata : (stopAllE s).data = s.data := by
    rw [stopAllE_data, foldl_stopOne_data]
  have hext : ∀ x, ExtOpt (s.progress x) ((stopAllE s).progress x) := by
    intro x
    rw [stopAllE_progress]
    exact foldl_stopOne_prog_ext _ _ _
  have hsome : ∀ x, ((stopAllE s).progress x).isSome = (s.progress x).isSome := by
    intro x
    rw [stopAllE_progress, foldl_stopOne_prog_isSome]
  constructor
  · intro u ru hru
    rw [hrun] at hru
    exact hI.noUndIds u ru hru
  · intro u ru hru
    rw [hrun] at hru
    rw [hsome u]
    exact hI.progEntered u ru hru
  · intro u ru hru hnd
    rw [hrun] at hru
    exact hI.termPhase u ru hru hnd
  · intro u ru hru l hl
    rw [hrun] at hru
    cases hold : s.progress (resultKey u) with
    | none =>
        exfalso
        rw [(hext (resultKey u)).1 hold] at hl
        exact Option.noConfusion hl
    | some l0 =>
        obtain ⟨suf, hsuf⟩ := (hext (resultKey u)).2 l0 hold
        rw [hsuf] at hl
        cases hl
        obtain ⟨ht, p, l2, hl0⟩ := hI.resStored u ru hru l0 hold
        exact ⟨ht, p, l2 ++ suf, by rw [hl0, List.cons_append]⟩
  · intro u ru hru hnone
    rw [hrun] at hru
    cases hold : s.progress (resultKey u) with
    | none => exact hI.resAbsent u ru hru hold
    | some l0 =>
        exfalso
        obtain ⟨suf, hsuf⟩ := (hext (resultKey u)).2 l0 hold
        rw [hsuf] at hnone
        exact Option.noConfusion hnone
  · intro k hk
    rw [hsome k] at hk
    rw [hrun]
    exact hI.prov k hk
  · intro u
    rw [hrun, hlock]
    exact hI.lockMid u
  · intro u ru hru hph
    rw [hrun] at hru
    rw [hdata]
    exact hI.dataRun u ru hru hph

/-! ### The invariant holds in every reachable state -/

theorem inv_step {s s' : Sys} (hI : Inv s) (h : Step s s') : Inv s' := by
  cases h with
  | submit t o hf hu => exact inv_submitE hI hf hu
  | initFlag t r hr hp => exact inv_initFlagE hI hr hp
  | acquire t r hr hp hl => exact inv_acquireE hI hr hp hl
  | checkYes t r hr hp hc => exact inv_checkYesE hI hr hp
  | checkNo t r hr hp hc => exact inv_checkNoE hI hr hp
  | agentDone t r hr hp =>
      cases hoc : r.outcome with
      | ok res =>
          have he : finishE s t r = finishOk s t r res := by rw [finishE, hoc]
          rw [he]
          exact inv_finishOk hI hr hp
      | err m =>
          have he : finishE s t r = finishErr s t r m := by rw [finishE, hoc]
          rw [he]
          exact inv_finishErr hI hr hp
  | stopOk t hp => exact inv_stopE hI
  | stopAll => exact inv_stopAllE hI

theorem inv_steps {s s' : Sys} (hI : Inv s) (h : Relation.ReflTransGen Step s s') :
    Inv s' := by
  induction h with
  | refl => exact hI
  | tail _ hstep ih => exact inv_step ih hstep

theorem inv_reachable {s : Sys} (h : Reachable s) : Inv s := inv_steps inv_init h

/-! ## Append-only progress logs -/

/-- One step only ever extends a present progress list. -/
theorem step_progLe {s s' : Sys} (hI : Inv s) (h : Step s s') (k : String)
    (l : List Entry) (hl : s.progress k = some l) :
    ∃ suf, s'.progress k = some (l ++ suf) := by
  cases h with
  | submit t o hf hu =>
      exact ⟨[], by rw [submitE_progress, hl, List.append_nil]⟩
  | initFlag t r hr hp =>
      exact ⟨[], by rw [initFlagE_progress, hl, List.append_nil]⟩
  | acquire t r hr hp hla =>
      exact ⟨[], by rw [acquireE_progress, hl, List.append_nil]⟩
  | checkYes t r hr hp hc =>
      rw [checkYesE_progress]
      exact aip_extends _ _ _ _ hl
  | checkNo t r hr hp hc =>
      rw [checkNoE_progress]
      by_cases hkt : k = t
      · subst hkt
        exfalso
        have hsome : (s.progress k).isSome = true := by rw [hl]; rfl
        rcases (hI.progEntered k r hr).mp hsome with h2 | ⟨h2, _⟩ <;> rw [hp] at h2 <;>
          exact Phase.noConfusion h2
      · exact ⟨[], by rw [mset_ne _ _ _ hkt, hl, List.append_nil]⟩
  | agentDone t r hr hp =>
      have hterm : r.term = none :=
        hI.termPhase t r hr (by rw [hp]; exact fun h2 => Phase.noConfusion h2)
      cases hoc : r.outcome with
      | err m =>
          have he : finishE s t r = finishErr s t r m := by rw [finishE, hoc]
          rw [he, finishErr_progress]
          exact aip_extends _ _ _ _ hl
      | ok res =>
          have he : finishE s t r = finishOk s t r res := by rw [finishE, hoc]
          rw [he]
          cases hc : cGet s t with
          | true =>
              rw [finishOk_progress_true s t r res hc]
              exact aip_extends _ _ _ _ hl
          | false =>
              rw [finishOk_progress_false s t r res hc]
              by_cases hkk : k = resultKey t
              · subst hkk
                exfalso
                have := (hI.resStored t r hr l hl).1
                rw [hterm] at this
                exact Option.noConfusion this
              · rw [mset_ne _ _ _ hkk]
                exact aip_extends _ _ _ _ hl
  | stopOk t hp =>
      rw [stopE_progress]
      obtain ⟨s1, h1⟩ := aip_extends s.progress t [Entry.line stoppingLine] k hl
      obtain ⟨s2, h2⟩ := aip_extends _ t [Entry.line stoppedLine] k h1
      exact ⟨s1 ++ s2, by rw [h2, List.append_assoc]⟩
  | stopAll =>
      rw [stopAllE_progress]
      exact (foldl_stopOne_prog_ext s.agents s k).2 l hl

/-- Along any run, a present progress list is only ever extended. -/
theorem steps_progLe {s s' : Sys} (hI : Inv s) (h : Relation.ReflTransGen Step s s')
    (k : String) (l : List Entry) (hl : s.progress k = some l) :
    ∃ suf, s'.progress k = some (l ++ suf) := by
  induction h with
  | refl => exact ⟨[], by rw [hl, List.append_nil]⟩
  | tail hsb hstep ih =>
      obtain ⟨s1, h1⟩ := ih
      obtain ⟨s2, h2⟩ := step_progLe (inv_steps hI hsb) hstep k (l ++ s1) h1
      exact ⟨s1 ++ s2, by rw [h2, List.append_assoc]⟩

/-! ## Derived system predicates used by the claims -/

/-- Predicate: `t`'s background job currently holds the Execution Serializer. -/
def holdsLease (s : Sys) (t : String) : Prop :=
  ∃ r, s.runners t = some r ∧ MidP r

/-- Predicate: `t`'s background job is inside `await agent.run()`. -/
def drivingAgent (s : Sys) (t : String) : Prop :=
  ∃ r, s.runners t = some r ∧ r.phase = Phase.running

/-- The phase of `t`'s background job, if scheduled. -/
def phaseOf (s : Sys) (t : String) : Option Phase := (s.runners t).map Runner.phase

theorem stopResp_ok_iff (s : Sys) (t : String) :
    stopResp s t = StopResult.ok ↔ (s.progress t).isSome = true := by
  unfold stopResp
  cases h : (s.progress t).isSome with
  | true => simp
  | false => simp

/-- Fact: `runAppend` always contains at least the final `"✓ Research complete..."`
line. -/
theorem runAppend_ne_nil (res : AgentResult) : runAppend res ≠ [] := by
  simp [runAppend]

/-! ## Concrete executions

Run A: submit, start, run, `POST /stop` while the agent call is in flight,
then the agent returns normally (outcome withheld).  Run B: same but the
agent call raises.  Run D: an undisturbed successful run whose result is
stored.  The ids stand for concrete `uuid4` values. -/

def okRes0 : AgentResult :=
  { structured := some { trends := [], recommendedSearches := [], summary := none },
    traces := [] }

def idA : String := "aaaa-bbbb"
def rA0 : Runner := ⟨Phase.notStarted, AgentOutcome.ok okRes0, none⟩
def rA1 : Runner := ⟨Phase.acquiring, AgentOutcome.ok okRes0, none⟩
def rA2 : Runner := ⟨Phase.checking, AgentOutcome.ok okRes0, none⟩
def rA3 : Runner := ⟨Phase.running, AgentOutcome.ok okRes0, none⟩

def sA1 : Sys := submitE initSys idA (AgentOutcome.ok okRes0)
def sA2 : Sys := initFlagE sA1 idA rA0
def sA3 : Sys := acquireE sA2 idA rA1
def sA4 : Sys := checkNoE sA3 idA rA2
def sA5 : Sys := stopE sA4 idA
def sA6 : Sys := finishE sA5 idA rA3

/-- The four lines `_run_trend_finder` writes before invoking the agent. -/
def entryLines4 : List Entry :=
  [Entry.line initLine, Entry.line connectedLine,
   Entry.line agentStartLine, Entry.line searchLine]

theorem stepA1 : Step initSys sA1 :=
  Step.submit initSys idA (AgentOutcome.ok okRes0) ⟨rfl, rfl, rfl, by decide, rfl⟩ (by unfold noUnd; decide)

theorem stepA2 : Step sA1 sA2 := Step.initFlag sA1 idA rA0 (by decide) rfl

theorem stepA3 : Step sA2 sA3 := Step.acquire sA2 idA rA1 (by decide) rfl rfl

theorem stepA4 : Step sA3 sA4 := Step.checkNo sA3 idA rA2 (by decide) rfl (by decide)

theorem stepA5 : Step sA4 sA5 := Step.stopOk sA4 idA (by decide)

theorem stepA6 : Step sA5 sA6 := Step.agentDone sA5 idA rA3 (by decide) rfl

theorem reachA1 : Reachable sA1 := Relation.ReflTransGen.single stepA1
theorem reachA2 : Reachable sA2 := reachA1.tail stepA2
theorem reachA3 : Reachable sA3 := reachA2.tail stepA3
theorem reachA4 : Reachable sA4 := reachA3.tail stepA4
theorem reachA5 : Reachable sA5 := reachA4.tail stepA5
theorem reachA6 : Reachable sA6 := reachA5.tail stepA6

def idB : String := "cccc-dddd"
def rB0 : Runner := ⟨Phase.notStarted, AgentOutcome.err "boom", none⟩
def rB1 : Runner := ⟨Phase.acquiring, AgentOutcome.err "boom", none⟩
def rB2 : Runner := ⟨Phase.checking, AgentOutcome.err "boom", none⟩
def rB3 : Runner := ⟨Phase.running, AgentOutcome.err "boom", none⟩
def rB4 : Runner := ⟨Phase.done, AgentOutcome.err "boom", some Term.failed⟩

def sB1 : Sys := submitE initSys idB (AgentOutcome.err "boom")
def sB2 : Sys := initFlagE sB1 idB rB0
def sB3 : Sys := acquireE sB2 idB rB1
def sB4 : Sys := checkNoE sB3 idB rB2
def sB5 : Sys := finishE sB4 idB rB3

theorem stepB1 : Step initSys sB1 :=
  Step.submit initSys idB (AgentOutcome.err "boom") ⟨rfl, rfl, rfl, by decide, rfl⟩ (by unfold noUnd; decide)

theorem stepB2 : Step sB1 sB2 := Step.initFlag sB1 idB rB0 (by decide) rfl

theorem stepB3 : Step sB2 sB3 := Step.acquire sB2 idB rB1 (by decide) rfl rfl

theorem stepB4 : Step sB3 sB4 := Step.checkNo sB3 idB rB2 (by decide) rfl (by decide)

theorem stepB5 : Step sB4 sB5 := Step.agentDone sB4 idB rB3 (by decide) rfl

theorem reachB1 : Reachable sB1 := Relation.ReflTransGen.single stepB1
theorem reachB2 : Reachable sB2 := reachB1.tail stepB2
theorem reachB3 : Reachable sB3 := reachB2.tail stepB3
theorem reachB4 : Reachable sB4 := reachB3.tail stepB4
theorem reachB5 : Reachable sB5 := reachB4.tail stepB5

def trD : Trend :=
  { trend_name := "Home Office Ergonomics", description := "desks",
    source := "blogs", engagement_level := "High",
    target_audience := "remote workers", product_opportunities := ["laptop stand"] }

def resD : AgentResult :=
  { structured := some
      { trends := [trD],
        recommendedSearches := ["ergonomic desk accessories under $50"],
        summary := some "ok" },
    traces := [["Visited https://example.com/trends for research", "short note", ""]] }

def idD : String := "gggg-hhhh"
def rD0 : Runner := ⟨Phase.notStarted, AgentOutcome.ok resD, none⟩
def rD1 : Runner := ⟨Phase.acquiring, AgentOutcome.ok resD, none⟩
def rD2 : Runner := ⟨Phase.checking, AgentOutcome.ok resD, none⟩
def rD3 : Runner := ⟨Phase.running, AgentOutcome.ok resD, none⟩
def rD4 : Runner := ⟨Phase.done, AgentOutcome.ok resD, some Term.stored⟩

def sD1 : Sys := submitE initSys idD (AgentOutcome.ok resD)
def sD2 : Sys := initFlagE sD1 idD rD0
def sD3 : Sys := acquireE sD2 idD rD1
def sD4 : Sys := checkNoE sD3 idD rD2
def sD5 : Sys := finishE sD4 idD rD3

theorem stepD1 : Step initSys sD1 :=
  Step.submit initSys idD (AgentOutcome.ok resD) ⟨rfl, rfl, rfl, by decide, rfl⟩ (by unfold noUnd; decide)

theorem stepD2 : Step sD1 sD2 := Step.initFlag sD1 idD rD0 (by decide) rfl

theorem stepD3 : Step sD2 sD3 := Step.acquire sD2 idD rD1 (by decide) rfl rfl

theorem stepD4 : Step sD3 sD4 := Step.checkNo sD3 idD rD2 (by decide) rfl (by decide)

theorem stepD5 : Step sD4 sD5 := Step.agentDone sD4 idD rD3 (by decide) rfl

theorem reachD1 : Reachable sD1 := Relation.ReflTransGen.single stepD1
theorem reachD2 : Reachable sD2 := reachD1.tail stepD2
theorem reachD3 : Reachable sD3 := reachD2.tail stepD3
theorem reachD4 : Reachable sD4 := reachD3.tail stepD4
theorem reachD5 : Reachable sD5 := reachD4.tail stepD5

/-- A state with a pre-set cancellation flag (not reachable through the API:
`/stop` 404s before the progress entry exists — see the C2/C6 analysis — but
exactly the premise of claim C3). -/
def idC : String := "eeee-ffff"
def sC0 : Sys :=
  { initSys with cancelled := mset initSys.cancelled idC true,
                 runners := mset initSys.runners idC ⟨Phase.notStarted, AgentOutcome.ok okRes0, none⟩ }
def sC1 : Sys := initFlagE sC0 idC ⟨Phase.notStarted, AgentOutcome.ok okRes0, none⟩
def sC2 : Sys := acquireE sC1 idC ⟨Phase.acquiring, AgentOutcome.ok okRes0, none⟩
def sC3 : Sys := checkNoE sC2 idC ⟨Phase.checking, AgentOutcome.ok okRes0, none⟩

theorem stepC1 : Step sC0 sC1 :=
  Step.initFlag sC0 idC ⟨Phase.notStarted, AgentOutcome.ok okRes0, none⟩ (by decide) rfl

theorem stepC2 : Step sC1 sC2 :=
  Step.acquire sC1 idC ⟨Phase.acquiring, AgentOutcome.ok okRes0, none⟩ (by decide) rfl rfl

theorem stepC3 : Step sC2 sC3 :=
  Step.checkNo sC2 idC ⟨Phase.checking, AgentOutcome.ok okRes0, none⟩ (by decide) rfl (by decide)

/-! ## Claim C1 -/

/-- Claim C1: at most one job holds the Execution Serializer (`_automation_lock`)
at any instant; at most one task's Job Runner is driving the Automation Agent
at any time; a finished runner never still holds the lock (it is released on
every exit path — normal completion, agent exception, cancellation); and a
runner waiting on the lock can only proceed to the holding phase when the
lock is free (all other acquirers block until release). -/
theorem C1_serializer_mutual_exclusion (s : Sys) (hs : Reachable s) :
    (∀ t u, holdsLease s t → holdsLease s u → t = u) ∧
    (∀ t u, drivingAgent s t → drivingAgent s u → t = u) ∧
    (∀ t r, s.runners t = some r → r.phase = Phase.done → s.lock ≠ some t) ∧
    (∀ s' t, Step s s' → phaseOf s t = some Phase.acquiring →
        phaseOf s' t = some Phase.checking → s.lock = none) := by
  have hI := inv_reachable hs
  refine ⟨?_, ?_, ?_, ?_⟩
  · rintro t u ⟨rt, hrt, hmt⟩ ⟨ru, hru, hmu⟩
    have h1 := (hI.lockMid t).mpr ⟨rt, hrt, hmt⟩
    have h2 := (hI.lockMid u).mpr ⟨ru, hru, hmu⟩
    rw [h1] at h2
    exact Option.some.inj h2
  · rintro t u ⟨rt, hrt, hmt⟩ ⟨ru, hru, hmu⟩
    have h1 := (hI.lockMid t).mpr ⟨rt, hrt, Or.inr hmt⟩
    have h2 := (hI.lockMid u).mpr ⟨ru, hru, Or.inr hmu⟩
    rw [h1] at h2
    exact Option.some.inj h2
  · intro t r hr hd hlock
    obtain ⟨r2, hr2, hm⟩ := (hI.lockMid t).mp hlock
    rw [hr] at hr2
    cases hr2
    rcases hm with h | h <;> rw [hd] at h <;> exact Phase.noConfusion h
  · intro s' t hstep hph hph'
    obtain ⟨ra, hra, hpa⟩ := Option.map_eq_some'.mp hph
    cases hstep with
    | submit u o hf hu =>
        rw [phaseOf, submitE_runners] at hph'
        by_cases hut : t = u
        · subst hut
          rw [hf.2.2.2.2] at hra
          exact Option.noConfusion hra
        · rw [mset_ne _ _ _ hut, hra] at hph'
          simp only [Option.map_some'] at hph'
          rw [hpa] at hph'
          exact absurd (Option.some.inj hph') (fun h => Phase.noConfusion h)
    | initFlag u r2 hr2 hp2 =>
        rw [phaseOf, initFlagE_runners] at hph'
        by_cases hut : t = u
        · subst hut
          rw [mset_self] at hph'
          simp only [Option.map_some'] at hph'
          exact absurd (Option.some.inj hph') (fun h => Phase.noConfusion h)
        · rw [mset_ne _ _ _ hut, hra] at hph'
          simp only [Option.map_some'] at hph'
          rw [hpa] at hph'
          exact absurd (Option.some.inj hph') (fun h => Phase.noConfusion h)
    | acquire u r2 hr2 hp2 hl2 => exact hl2
    | checkYes u r2 hr2 hp2 hc2 =>
        rw [phaseOf, checkYesE_runners] at hph'
        by_cases hut : t = u
        · subst hut
          rw [mset_self] at hph'
          simp only [Option.map_some'] at hph'
          exact absurd (Option.some.inj hph') (fun h => Phase.noConfusion h)
        · rw [mset_ne _ _ _ hut, hra] at hph'
          simp only [Option.map_some'] at hph'
          rw [hpa] at hph'
          exact absurd (Option.some.inj hph') (fun h => Phase.noConfusion h)
    | checkNo u r2 hr2 hp2 hc2 =>
        rw [phaseOf, checkNoE_runners] at hph'
        by_cases hut : t = u
        · subst hut
          rw [mset_self] at hph'
          simp only [Option.map_some'] at hph'
          exact absurd (Option.some.inj hph') (fun h => Phase.noConfusion h)
        · rw [mset_ne _ _ _ hut, hra] at hph'
          simp only [Option.map_some'] at hph'
          rw [hpa] at hph'
          exact absurd (Option.some.inj hph') (fun h => Phase.noConfusion h)
    | agentDone u r2 hr2 hp2 =>
        exfalso
        by_cases hut : t = u
        · subst hut
          cases hoc : r2.outcome with
          | ok res =>
              have he : finishE s t r2 = finishOk s t r2 res := by rw [finishE, hoc]
              rw [phaseOf, he, finishOk_runners, mset_self] at hph'
              simp only [Option.map_some'] at hph'
              exact Phase.noConfusion (Option.some.inj hph')
          | err m =>
              have he : finishE s t r2 = finishErr s t r2 m := by rw [finishE, hoc]
              rw [phaseOf, he, finishErr_runners, mset_self] at hph'
              simp only [Option.map_some'] at hph'
              exact Phase.noConfusion (Option.some.inj hph')
        · have hrr : (finishE s u r2).runners t = s.runners t := by
            cases hoc : r2.outcome with
            | ok res =>
                have he : finishE s u r2 = finishOk s u r2 res := by rw [finishE, hoc]
                rw [he, finishOk_runners, mset_ne _ _ _ hut]
            | err m =>
                have he : finishE s u r2 = finishErr s u r2 m := by rw [finishE, hoc]
                rw [he, finishErr_runners, mset_ne _ _ _ hut]
          rw [phaseOf, hrr, hra] at hph'
          simp only [Option.map_some'] at hph'
          rw [hpa] at hph'
          exact Phase.noConfusion (Option.some.inj hph')
    | stopOk u hp2 =>
        rw [phaseOf, stopE_runners, hra] at hph'
        simp only [Option.map_some'] at hph'
        rw [hpa] at hph'
        exact absurd (Option.some.inj hph') (fun h => Phase.noConfusion h)
    | stopAll =>
        rw [phaseOf, stopAllE_runners, foldl_stopOne_runners, hra] at hph'
        simp only [Option.map_some'] at hph'
        rw [hpa] at hph'
        exact absurd (Option.some.inj hph') (fun h => Phase.noConfusion h)

/-- Witness for C1, applied at the reachable state `sB5` in which run B has
finished through the exception path: its runner no longer holds the lock. -/
theorem C1_serializer_mutual_exclusion_witness : sB5.lock ≠ some idB :=
  (C1_serializer_mutual_exclusion sB5 reachB5).2.2.1 idB rB4 (by decide) rfl

/-! ## Claim C8 -/

/-- Claim C8: for every task id, the progress log is append-only across the
process lifetime: whatever list a read observes, every later read observes an
extension of it (a prefix/extension relationship — entries are never removed,
reordered, or deduplicated, and readers observe them in append order). -/
theorem C8_progress_append_only (s s' : Sys) (hs : Reachable s)
    (hrun : Relation.ReflTransGen Step s s') (k : String) (l : List Entry)
    (hl : s.progress k = some l) :
    ∃ l', s'.progress k = some l' ∧ l <+: l' := by
  obtain ⟨suf, hsuf⟩ := steps_progLe (inv_reachable hs) hrun k l hl
  exact ⟨l ++ suf, hsuf, ⟨suf, rfl⟩⟩

/-- Witness for C8: across the `/stop` request in run A, the four-line log
observed at `sA4` is a prefix of the log observed at `sA5`. -/
theorem C8_progress_append_only_witness :
    ∃ l', sA5.progress idA = some l' ∧ entryLines4 <+: l' :=
  C8_progress_append_only sA4 sA5 reachA4 (Relation.ReflTransGen.single stepA5)
    idA entryLines4 (by decide)

/-! ## Claim C2 -/

/-- Counterexample to claim C2: immediately after a submission issued the id
(`Step.submit`, the `find_trends` branch of `POST /run` returning
`{status: "started", task_id}`), the task is pending — its background job has
not run yet, so `task_id not in _task_progress` — and `POST /stop/{task_id}`
returns 404 even though the id was issued.  This refutes "404 only when the
id was never issued / for every issued id the call succeeds". -/
theorem C2_counterexample :
    Step initSys sA1 ∧ (∃ r, sA1.runners idA = some r ∧ r.phase = Phase.notStarted) ∧
    stopResp sA1 idA = StopResult.notFound :=
  ⟨stepA1, ⟨rA0, by decide, rfl⟩, by decide⟩

/-- Claim C2 as amended: `POST /stop/{taskId}` succeeds exactly when the task's
progress entry exists, i.e. exactly when its background job has entered
`_run_trend_finder` (it is running, or finished through an exit path other
than the cancelled-before-start return).  In particular stopping an
already-finished task still succeeds, but stopping an issued id that is
still pending (scheduled, or waiting for the Execution Serializer) returns
404 even though the id was issued. -/
theorem C2_stop_success_iff_entered (s : Sys) (t : String) (r : Runner)
    (hs : Reachable s) (hr : s.runners t = some r) :
    (stopResp s t = StopResult.ok ↔ EnteredP r) ∧
    (r.phase = Phase.done → r.term ≠ some Term.preCancelled →
        stopResp s t = StopResult.ok) := by
  have hiff := (stopResp_ok_iff s t).trans ((inv_reachable hs).progEntered t r hr)
  exact ⟨hiff, fun hd hnt => hiff.mpr (Or.inr ⟨hd, hnt⟩)⟩

/-- Witness for the amended C2, applied at `sA6`: run A has finished (result
withheld by cancellation), and `/stop` on it still succeeds. -/
theorem C2_stop_success_iff_entered_witness : stopResp sA6 idA = StopResult.ok :=
  (C2_stop_success_iff_entered sA6 idA
      ⟨Phase.done, AgentOutcome.ok okRes0, some Term.withheld⟩
      reachA6 (by decide)).2 rfl (by decide)

/-! ## Claim C6 -/

/-- Counterexample to claim C6: a `GET /progress/{taskId}` issued immediately after
the submission returned `{status: "started", taskId}` — before the background
job has run — yields 404 (`NotFound`), not a non-empty log: the progress
entry is created only inside `_run_trend_finder`, after the Execution
Serializer has been acquired. -/
theorem C6_counterexample :
    Step initSys sA1 ∧ (∃ r, sA1.runners idA = some r) ∧ getProgress sA1 idA = none :=
  ⟨stepA1, ⟨rA0, by decide⟩, by decide⟩

/-- Claim C6 as amended: not immediately after submission (where `/progress`
returns 404), but as soon as the background job begins executing the trend
finder — the `checkNo` step, which initialises the log — `GET /progress`
returns a non-empty log (the initialization lines) with `completed: false`. -/
theorem C6_progress_nonempty_after_entry (s : Sys) (t : String) (r : Runner)
    (hr : s.runners t = some r) (hp : r.phase = Phase.checking) (hc : cGet s t = false) :
    Step s (checkNoE s t r) ∧
    ∃ resp, getProgress (checkNoE s t r) t = some resp ∧
      resp.messages = entryLines4 ∧ resp.messages ≠ [] ∧ resp.completed = false := by
  have hpt : (checkNoE s t r).progress t = some entryLines4 := by
    rw [checkNoE_progress]
    exact mset_self _ _ _
  refine ⟨Step.checkNo s t r hr hp hc, ?_⟩
  unfold getProgress
  rw [hpt]
  refine ⟨_, rfl, rfl, ?_, ?_⟩
  · show entryLines4 ≠ []
    decide
  · show completedFlag entryLines4 = false
    decide

/-- Witness for the amended C6 at `sA3` (run A, lock granted, flag false). -/
theorem C6_progress_nonempty_after_entry_witness :
    Step sA3 sA4 ∧
    ∃ resp, getProgress sA4 idA = some resp ∧
      resp.messages = entryLines4 ∧ resp.messages ≠ [] ∧ resp.completed = false :=
  C6_progress_nonempty_after_entry sA3 idA rA2 (by decide) rfl (by decide)

/-! ## Claim C3 -/

/-- Counterexample to claim C3: starting from a state whose cancellation flag for
the task is already set when the Job Runner begins, the runner does *not*
terminate as Cancelled without the lease: `_run_trend_finder_background`
first overwrites the flag with `False`, then acquires the Execution
Serializer, and — the post-acquisition check reading the clobbered flag —
proceeds to invoke the Automation Agent. -/
theorem C3_counterexample :
    sC0.cancelled idC = some true ∧
    (∃ r, sC0.runners idC = some r ∧ r.phase = Phase.notStarted) ∧
    Step sC0 sC1 ∧ Step sC1 sC2 ∧ Step sC2 sC3 ∧
    cGet sC1 idC = false ∧ sC2.lock = some idC ∧ drivingAgent sC3 idC :=
  ⟨by decide, ⟨⟨Phase.notStarted, AgentOutcome.ok okRes0, none⟩, by decide, rfl⟩,
   stepC1, stepC2, stepC3, by decide, rfl,
   ⟨⟨Phase.running, AgentOutcome.ok okRes0, none⟩, by decide, rfl⟩⟩

/-- Claim C3 as amended: a cancellation flag already set when the Job Runner
begins is reset to `False` by the runner's first statement, so it does not
cause a Cancelled exit: the runner goes on to acquire the Execution
Serializer and to invoke the Automation Agent.  (Only a flag set *after* the
runner has started and observed at the post-acquisition checkpoint triggers
the cancelled-before-start return — and that check happens while holding the
lease.) -/
theorem C3_precancel_flag_clobbered (s : Sys) (t : String) (o : AgentOutcome)
    (hr : s.runners t = some ⟨Phase.notStarted, o, none⟩)
    (hl : s.lock = none) (_hc : s.cancelled t = some true) :
    ∃ s1 s2 s3, Step s s1 ∧ Step s1 s2 ∧ Step s2 s3 ∧
      cGet s1 t = false ∧ s2.lock = some t ∧ drivingAgent s3 t := by
  refine ⟨initFlagE s t ⟨Phase.notStarted, o, none⟩,
          acquireE (initFlagE s t ⟨Phase.notStarted, o, none⟩) t ⟨Phase.acquiring, o, none⟩,
          checkNoE
            (acquireE (initFlagE s t ⟨Phase.notStarted, o, none⟩) t ⟨Phase.acquiring, o, none⟩)
            t ⟨Phase.checking, o, none⟩, ?_, ?_, ?_, ?_, ?_, ?_⟩
  · exact Step.initFlag s t _ hr rfl
  · exact Step.acquire _ t _ (mset_self _ _ _) rfl (by rw [initFlagE_lock]; exact hl)
  · refine Step.checkNo _ t _ (mset_self _ _ _) rfl ?_
    unfold cGet
    rw [acquireE_cancelled, initFlagE_cancelled, mset_self]
    rfl
  · unfold cGet
    rw [initFlagE_cancelled, mset_self]
    rfl
  · rw [acquireE_lock]
  · exact ⟨_, mset_self _ _ _, rfl⟩

/-- Witness for the amended C3, applied at the concrete pre-cancelled state
`sC0`. -/
theorem C3_precancel_flag_clobbered_witness :
    ∃ s1 s2 s3, Step sC0 s1 ∧ Step s1 s2 ∧ Step s2 s3 ∧
      cGet s1 idC = false ∧ s2.lock = some idC ∧ drivingAgent s3 idC :=
  C3_precancel_flag_clobbered sC0 idC (AgentOutcome.ok okRes0) (by decide) rfl (by decide)

/-! ## Claim C4 -/

/-- Counterexample to claim C4: run B reaches the terminal Failed state (the agent
raised), yet `GET /result/{taskId}` still returns 404 — the result key is
written only on non-cancelled normal completion, so "result present iff the
state is terminal" is false. -/
theorem C4_counterexample :
    Reachable sB5 ∧
    (∃ r, sB5.runners idB = some r ∧ r.phase = Phase.done ∧ r.term = some Term.failed) ∧
    getResult sB5 idB = none :=
  ⟨reachB5, ⟨rB4, by decide, rfl, rfl⟩, by decide⟩

/-- Claim C4 as amended: `GET /result/{taskId}` returns a payload exactly for
tasks that completed normally with no cancellation observed (the `stored`
exit path); for Failed and Cancelled tasks — although terminal — and for
pending/running tasks and unknown ids it returns 404. -/
theorem C4_result_iff_stored (s : Sys) (t : String) (r : Runner)
    (hs : Reachable s) (hr : s.runners t = some r) :
    ((getResult s t).isSome = true ↔ r.term = some Term.stored) ∧
    (r.term = some Term.stored → ∃ p, getResult s t = some (Entry.payload p)) := by
  have hI := inv_reachable hs
  unfold getResult
  cases hpr : s.progress (resultKey t) with
  | none =>
      constructor
      · constructor
        · intro h; exact absurd h (by simp)
        · intro h; exact absurd h (hI.resAbsent t r hr hpr)
      · intro h; exact absurd h (hI.resAbsent t r hr hpr)
  | some l =>
      obtain ⟨ht, p, l2, hl⟩ := hI.resStored t r hr l hpr
      subst hl
      refine ⟨⟨fun _ => ht, fun _ => rfl⟩, fun _ => ⟨p, rfl⟩⟩

/-- Witness for the amended C4 at `sD5`: run D completed normally and its
result is a stored payload. -/
theorem C4_result_iff_stored_witness : ∃ p, getResult sD5 idD = some (Entry.payload p) :=
  (C4_result_iff_stored sD5 idD rD4 reachD5 (by decide)).2 rfl

/-! ## Claim C5 -/

/-- Claim C5: if cancellation was requested while the task is Running (the flag
reads true), then (a) every later observation of the progress log extends the
current one (all streamed partial data is preserved), and (b) under any next
step the flag stays observed-true while the task keeps running, and when the
Agent call returns (normally, as the claim's "once the Agent call returns"
presumes) the recorded outcome is the cancellation-withheld exit — the result
is never stored, so `GET /result` keeps returning 404 — regardless of whether
the agent found trends, with the data accumulator only ever extended. -/
theorem C5_cancel_while_running_withholds_result (s s' : Sys) (t : String) (r : Runner)
    (res : AgentResult) (hs : Reachable s) (hr : s.runners t = some r)
    (hp : r.phase = Phase.running) (ho : r.outcome = AgentOutcome.ok res)
    (hc : cGet s t = true) (hstep : Step s s') :
    (∀ l, s.progress t = some l → ∃ suf, s'.progress t = some (l ++ suf)) ∧
    (∃ r', s'.runners t = some r' ∧
      ((r'.phase = Phase.running ∧ r'.outcome = AgentOutcome.ok res ∧ cGet s' t = true) ∨
       (r'.phase = Phase.done ∧ r'.term = some Term.withheld ∧ getResult s' t = none ∧
        (∀ d, s.data t = some d → ∃ d', s'.data t = some d' ∧
          d.trends <+: d'.trends ∧ d.actions <+: d'.actions ∧
          d.pagesVisited <+: d'.pagesVisited ∧
          d.recommendedSearches <+: d'.recommendedSearches)))) := by
  have hI := inv_reachable hs
  refine ⟨fun l hl => step_progLe hI hstep t l hl, ?_⟩
  cases hstep with
  | submit u o hf hu =>
      have htu : t ≠ u := by
        intro h
        subst h
        rw [hf.2.2.2.2] at hr
        exact Option.noConfusion hr
      exact ⟨r, by rw [submitE_runners, mset_ne _ _ _ htu]; exact hr,
             Or.inl ⟨hp, ho, hc⟩⟩
  | initFlag u r2 hr2 hp2 =>
      have htu : t ≠ u := by
        intro h
        subst h
        rw [hr] at hr2
        cases hr2
        rw [hp] at hp2
        exact Phase.noConfusion hp2
      refine ⟨r, by rw [initFlagE_runners, mset_ne _ _ _ htu]; exact hr,
              Or.inl ⟨hp, ho, ?_⟩⟩
      unfold cGet
      rw [initFlagE_cancelled, mset_ne _ _ _ htu]
      exact hc
  | acquire u r2 hr2 hp2 hl2 =>
      have htu : t ≠ u := by
        intro h
        subst h
        rw [hr] at hr2
        cases hr2
        rw [hp] at hp2
        exact Phase.noConfusion hp2
      exact ⟨r, by rw [acquireE_runners, mset_ne _ _ _ htu]; exact hr,
             Or.inl ⟨hp, ho, hc⟩⟩
  | checkYes u r2 hr2 hp2 hc2 =>
      have htu : t ≠ u := by
        intro h
        subst h
        rw [hr] at hr2
        cases hr2
        rw [hp] at hp2
        exact Phase.noConfusion hp2
      refine ⟨r, by rw [checkYesE_runners, mset_ne _ _ _ htu]; exact hr,
              Or.inl ⟨hp, ho, ?_⟩⟩
      unfold cGet
      rw [checkYesE_cancelled, mdel_ne _ _ htu]
      exact hc
  | checkNo u r2 hr2 hp2 hc2 =>
      have htu : t ≠ u := by
        intro h
        subst h
        rw [hr] at hr2
        cases hr2
        rw [hp] at hp2
        exact Phase.noConfusion hp2
      exact ⟨r, by rw [checkNoE_runners, mset_ne _ _ _ htu]; exact hr,
             Or.inl ⟨hp, ho, hc⟩⟩
  | agentDone u r2 hr2 hp2 =>
      by_cases hut : t = u
      · subst hut
        rw [hr] at hr2
        cases hr2
        have he : finishE s t r = finishOk s t r res := by rw [finishE, ho]
        have hterm : r.term = none :=
          hI.termPhase t r hr (by rw [hp]; exact fun h => Phase.noConfusion h)
        have hres : (finishE s t r).runners t = some
            { r with phase := Phase.done,
                     term := some (if cGet s t then Term.withheld else Term.stored) } := by
          rw [he, finishOk_runners]
          exact mset_self _ _ _
        refine ⟨_, hres, Or.inr ⟨rfl, by simp [hc], ?_, ?_⟩⟩
        · have hpr : s.progress (resultKey t) = none := by
            cases hx : s.progress (resultKey t) with
            | none => rfl
            | some l =>
                exfalso
                have := (hI.resStored t r hr l hx).1
                rw [hterm] at this
                exact Option.noConfusion this
          unfold getResult
          rw [he, finishOk_progress_true s t r res hc,
              aip_ne _ _ _ (resultKey_ne_self t), hpr]
          rfl
        · intro d hd
          have hdr := hI.dataRun t r hr hp
          rw [hd] at hdr
          cases Option.some.inj hdr
          refine ⟨updData emptyTData res, ?_, List.nil_prefix, List.nil_prefix,
                  List.nil_prefix, List.nil_prefix⟩
          rw [he, finishOk_data, mset_self, hd]
          rfl
      · have hrr : (finishE s u r2).runners t = s.runners t := by
          cases hoc : r2.outcome with
          | ok res2 =>
              have he2 : finishE s u r2 = finishOk s u r2 res2 := by rw [finishE, hoc]
              rw [he2, finishOk_runners, mset_ne _ _ _ hut]
          | err m =>
              have he2 : finishE s u r2 = finishErr s u r2 m := by rw [finishE, hoc]
              rw [he2, finishErr_runners, mset_ne _ _ _ hut]
        have hcc : cGet (finishE s u r2) t = cGet s t := by
          cases hoc : r2.outcome with
          | ok res2 =>
              have he2 : finishE s u r2 = finishOk s u r2 res2 := by rw [finishE, hoc]
              unfold cGet
              rw [he2, finishOk_cancelled, mdel_ne _ _ hut]
          | err m =>
              have he2 : finishE s u r2 = finishErr s u r2 m := by rw [finishE, hoc]
              unfold cGet
              rw [he2, finishErr_cancelled, mdel_ne _ _ hut]
        exact ⟨r, by rw [hrr]; exact hr, Or.inl ⟨hp, ho, by rw [hcc]; exact hc⟩⟩
  | stopOk u hp2 =>
      refine ⟨r, by rw [stopE_runners]; exact hr, Or.inl ⟨hp, ho, ?_⟩⟩
      unfold cGet
      rw [stopE_cancelled]
      by_cases hut : t = u
      · subst hut
        rw [mset_self]
        rfl
      · rw [mset_ne _ _ _ hut]
        exact hc
  | stopAll =>
      refine ⟨r, by rw [stopAllE_runners, foldl_stopOne_runners]; exact hr,
              Or.inl ⟨hp, ho, ?_⟩⟩
      exact foldl_stopOne_cGet_true s.agents hc

/-- Witness for C5 at run A: after the `/stop` during the agent call, the
`agentDone` step records the withheld (cancelled) outcome. -/
theorem C5_cancel_while_running_withholds_result_witness :
    ∃ r', sA6.runners idA = some r' ∧
      ((r'.phase = Phase.running ∧ r'.outcome = AgentOutcome.ok okRes0 ∧ cGet sA6 idA = true) ∨
       (r'.phase = Phase.done ∧ r'.term = some Term.withheld ∧ getResult sA6 idA = none ∧
        (∀ d, sA5.data idA = some d → ∃ d', sA6.data idA = some d' ∧
          d.trends <+: d'.trends ∧ d.actions <+: d'.actions ∧
          d.pagesVisited <+: d'.pagesVisited ∧
          d.recommendedSearches <+: d'.recommendedSearches))) :=
  (C5_cancel_while_running_withholds_result sA5 sA6 idA rA3 okRes0
      reachA5 (by decide) rfl rfl (by decide) stepA6).2

/-! ## Claim C7 -/

/-- Claim C7: if the Agent call raises, the exception is absorbed by the Job
Runner's `except` clause: the step to a well-defined successor state exists
(nothing propagates past the runner), the Execution Serializer is released,
the task terminates through the Failed exit path with the error text appended
as the final progress-log line, and the orchestrator keeps serving queries
for the task. -/
theorem C7_agent_failure_contained (s : Sys) (t : String) (r : Runner) (m : String)
    (hs : Reachable s) (hr : s.runners t = some r) (hp : r.phase = Phase.running)
    (ho : r.outcome = AgentOutcome.err m) :
    Step s (finishE s t r) ∧
    (finishE s t r).lock = none ∧
    (∃ l, s.progress t = some l ∧
      (finishE s t r).progress t = some (l ++ [Entry.line (errLine m)])) ∧
    (∃ r', (finishE s t r).runners t = some r' ∧ r'.phase = Phase.done ∧
      r'.term = some Term.failed) ∧
    getProgress (finishE s t r) t ≠ none := by
  have hI := inv_reachable hs
  have he : finishE s t r = finishErr s t r m := by rw [finishE, ho]
  have hsome : (s.progress t).isSome = true := (hI.progEntered t r hr).mpr (Or.inl hp)
  obtain ⟨l, hl⟩ := Option.isSome_iff_exists.mp hsome
  have hpt : (finishE s t r).progress t = some (l ++ [Entry.line (errLine m)]) := by
    rw [he, finishErr_progress]
    exact aip_self_of_some _ _ _ hl
  refine ⟨Step.agentDone s t r hr hp, by rw [he, finishErr_lock], ⟨l, hl, hpt⟩, ?_, ?_⟩
  · exact ⟨_, by rw [he, finishErr_runners]; exact mset_self _ _ _, rfl, rfl⟩
  · unfold getProgress
    rw [hpt]
    exact fun h => Option.noConfusion h

/-- Witness for C7 at run B, where the agent raises `"boom"`. -/
theorem C7_agent_failure_contained_witness :
    Step sB4 sB5 ∧
    sB5.lock = none ∧
    (∃ l, sB4.progress idB = some l ∧
      sB5.progress idB = some (l ++ [Entry.line (errLine "boom")])) ∧
    (∃ r', sB5.runners idB = some r' ∧ r'.phase = Phase.done ∧
      r'.term = some Term.failed) ∧
    getProgress sB5 idB ≠ none :=
  C7_agent_failure_contained sB4 idB rB3 "boom" reachB4 (by decide) rfl rfl

/-! ## Claim C9 -/

theorem streamActions_fst (acts : List String) :
    (streamActions acts).1 = (acts.map actionLines).flatten := by
  induction acts with
  | nil => rfl
  | cons a rest ih => simp [streamActions, ih]

theorem streamActions_snd (acts : List String) :
    (streamActions acts).2 = acts.filter urlLike := by
  induction acts with
  | nil => rfl
  | cons a rest ih =>
      cases hu : urlLike a <;> simp [streamActions, ih, List.filter_cons, hu]

/-- Claim C9: the trace-translation loop preserves the relative order of trace
entries (the progress additions are the in-order concatenation of each
entry's lines, the visited-pages additions the in-order filter); every
URL-like entry is appended to the visited-pages list and contributes a
page-visit-tagged line; every non-URL entry under the 150-character threshold
contributes its text verbatim as a narration line; and every longer non-URL
entry contributes nothing (dropped). -/
theorem C9_trace_translation_policy (acts : List String) :
    (streamActions acts).1 = (acts.map actionLines).flatten ∧
    (streamActions acts).2 = acts.filter urlLike ∧
    (∀ a, a ∈ acts → urlLike a = true →
      a ∈ (streamActions acts).2 ∧ Entry.line (visitLine a) ∈ (streamActions acts).1) ∧
    (∀ a, a ∈ acts → urlLike a = false → a.length < 150 →
      Entry.line (narrLine a) ∈ (streamActions acts).1) ∧
    (∀ a, urlLike a = false → 150 ≤ a.length → actionLines a = []) := by
  refine ⟨streamActions_fst acts, streamActions_snd acts, ?_, ?_, ?_⟩
  · intro a ha hu
    constructor
    · rw [streamActions_snd]
      exact List.mem_filter.mpr ⟨ha, hu⟩
    · rw [streamActions_fst]
      apply List.mem_flatten.mpr
      refine ⟨actionLines a, List.mem_map_of_mem _ ha, ?_⟩
      have hal : actionLines a = [Entry.line (visitLine a)] := by
        simp [actionLines, hu]
      rw [hal]
      exact List.mem_singleton_self _
  · intro a ha hu hlen
    rw [streamActions_fst]
    apply List.mem_flatten.mpr
    refine ⟨actionLines a, List.mem_map_of_mem _ ha, ?_⟩
    have hal : actionLines a = [Entry.line (narrLine a)] := by
      simp [actionLines, hu, hlen]
    rw [hal]
    exact List.mem_singleton_self _
  · intro a hu hlen
    simp [actionLines, hu, Nat.not_lt.mpr hlen]

/-- The action texts of run D (what the streaming loop iterates over). -/
def actsD : List String := collActs resD

/-- Witness for C9 on run D's trace: the URL-like entry is recorded as a
visited page and tagged in the log. -/
theorem C9_trace_translation_policy_witness :
    "Visited https://example.com/trends for research" ∈ (streamActions actsD).2 ∧
    Entry.line (visitLine "Visited https://example.com/trends for research") ∈
      (streamActions actsD).1 :=
  (C9_trace_translation_policy actsD).2.2.1
    "Visited https://example.com/trends for research" (by decide) (by decide)

/-! ## Claim C10 -/

/-- Claim C10: immediately after a successful `POST /stop/{taskId}` on a task
whose progress entry exists, `GET /progress/{taskId}` reports
`completed: true` — `/stop` appends `"✓ Automation stopped"` last and the
completed heuristic checks whether the last line starts with the checkmark —
even though the runner entry is untouched and, if the agent call is still in
flight, its return will append further lines afterwards. -/
theorem C10_stop_flips_completed (s : Sys) (t : String) (l : List Entry)
    (hl : s.progress t = some l) :
    Step s (stopE s t) ∧
    (∃ resp, getProgress (stopE s t) t = some resp ∧ resp.completed = true ∧
      resp.messages = l ++ [Entry.line stoppingLine, Entry.line stoppedLine]) ∧
    (stopE s t).runners t = s.runners t ∧
    (∀ r, s.runners t = some r → r.phase = Phase.running →
      Step (stopE s t) (finishE (stopE s t) t r) ∧
      ∃ suf, suf ≠ [] ∧ (finishE (stopE s t) t r).progress t =
        some ((l ++ [Entry.line stoppingLine, Entry.line stoppedLine]) ++ suf)) := by
  have hpt : (stopE s t).progress t =
      some (l ++ [Entry.line stoppingLine, Entry.line stoppedLine]) := by
    rw [stopE_progress]
    have h1 := aip_self_of_some s.progress t [Entry.line stoppingLine] hl
    have h2 := aip_self_of_some _ t [Entry.line stoppedLine] h1
    rw [h2]
    exact congrArg some
      (List.append_assoc l [Entry.line stoppingLine] [Entry.line stoppedLine])
  have hgl : (l ++ [Entry.line stoppingLine, Entry.line stoppedLine]).getLast? =
      some (Entry.line stoppedLine) := by
    have hsplit : l ++ [Entry.line stoppingLine, Entry.line stoppedLine] =
        (l ++ [Entry.line stoppingLine]) ++ [Entry.line stoppedLine] :=
      (List.append_assoc l [Entry.line stoppingLine] [Entry.line stoppedLine]).symm
    rw [hsplit]
    exact List.getLast?_concat _
  have hcomp : completedFlag (l ++ [Entry.line stoppingLine, Entry.line stoppedLine]) = true := by
    unfold completedFlag
    rw [hgl]
    have hne : (l ++ [Entry.line stoppingLine, Entry.line stoppedLine]).isEmpty = false := by
      cases l <;> rfl
    rw [hne]
    have hsw : entryCheck (Entry.line stoppedLine) = true := by decide
    rw [Option.map_some', hsw]
    rfl
  refine ⟨Step.stopOk s t (by rw [hl]; rfl), ?_, rfl, ?_⟩
  · have hgp : getProgress (stopE s t) t = some
        ⟨l ++ [Entry.line stoppingLine, Entry.line stoppedLine],
         ((stopE s t).data t).getD emptyTData,
         completedFlag (l ++ [Entry.line stoppingLine, Entry.line stoppedLine])⟩ := by
      unfold getProgress
      rw [hpt]
    exact ⟨_, hgp, hcomp, rfl⟩
  · intro r hr hp
    refine ⟨Step.agentDone (stopE s t) t r (by rw [stopE_runners]; exact hr) hp, ?_⟩
    cases hoc : r.outcome with
    | err m =>
        have he : finishE (stopE s t) t r = finishErr (stopE s t) t r m := by
          rw [finishE, hoc]
        refine ⟨[Entry.line (errLine m)], by simp, ?_⟩
        rw [he, finishErr_progress]
        exact aip_self_of_some _ _ _ hpt
    | ok res =>
        have he : finishE (stopE s t) t r = finishOk (stopE s t) t r res := by
          rw [finishE, hoc]
        have hcg : cGet (stopE s t) t = true := by
          unfold cGet
          rw [stopE_cancelled, mset_self]
          rfl
        refine ⟨runAppend res, runAppend_ne_nil res, ?_⟩
        rw [he, finishOk_progress_true _ _ _ _ hcg]
        exact aip_self_of_some _ _ _ hpt

/-- Witness for C10 at `sA4` (run A, agent in flight). -/
theorem C10_stop_flips_completed_witness :
    ∃ resp, getProgress (stopE sA4 idA) idA = some resp ∧ resp.completed = true ∧
      resp.messages = entryLines4 ++ [Entry.line stoppingLine, Entry.line stoppedLine] :=
  (C10_stop_flips_completed sA4 idA entryLines4 (by decide)).2.1

end Browserbot
